import Mathlib

set_option linter.unusedSectionVars false

/-! # QR eigenvalue iteration (`qr_algorithm.cpp`): embedding and verification

The dense kernel of the repository (`qr_decomposition`, `multiply` and the driver loop of
`main`) is embedded over an arbitrary field `α` together with a square-root function
`sqrt : α → α`; the theorems about exact real arithmetic instantiate `α := ℝ` and
`sqrt := Real.sqrt`. The loader `load_matrix` is embedded on the parsed contents of its
file, and the sparse-vector methods `qr::Vec::dot` and `qr::Vec::project` (`math.hpp`) by
recursion on their `while` loops.

* `std::vector<T>` is a `List α`; every subscript is bounds-checked and an out-of-range
  subscript is the fault `Fault.outOfRange`.
* A failed `assert` is the fault `Fault.assertion`.
* A division by a zero divisor, which has no value in exact arithmetic, is the fault
  `Fault.divByZero`.
* A counted `for` loop is `forLoop lo hi body`, which threads the loop-carried state
  through `body lo`, `body (lo+1)`, …, `body (hi-1)` and stops at the first fault. The
  `omp parallel for` regions are run in index order.
* Dimensions and indices are natural numbers: `int` overflow of `i * n + k` is outside the
  model.
* The element type `T = double` is replaced by an exact field: rounding, overflow to an
  infinity, underflow and NaN are outside the model, and every statement about values is a
  statement of exact arithmetic.
-/

/-- Square matrices of Mathlib, used to state the algebraic properties. -/
abbrev SqMat (n : Nat) (α : Type) := Matrix (Fin n) (Fin n) α

namespace QR

/-- The ways in which a routine can stop without a result. -/
inductive Fault where
  | assertion
  | outOfRange
  | divByZero
  deriving DecidableEq, Repr

/-- `struct Matrix` (qr_algorithm.cpp:13-19): a dimension and a flat buffer. -/
structure Matrix (α : Type) where
  n : Nat
  v : List α
  deriving DecidableEq, Repr

/-- The constructor `Matrix(int n, T init = 0)`: a buffer of `n * n` copies of `init`. -/
def Matrix.init {α : Type} (n : Nat) (init : α) : Matrix α :=
  ⟨n, List.replicate (n * n) init⟩

/-- Checked read `v[i]`. -/
def rd {α : Type} (v : List α) (i : Nat) : Except Fault α :=
  if h : i < v.length then .ok v[i] else .error .outOfRange

/-- Checked write `v[i] = x`. -/
def wr {α : Type} (v : List α) (i : Nat) (x : α) : Except Fault (List α) :=
  if i < v.length then .ok (v.set i x) else .error .outOfRange

/-- Checked division `x / y`. -/
def divide {α : Type} [Field α] [DecidableEq α] (x y : α) : Except Fault α :=
  if y = 0 then .error .divByZero else .ok (x / y)

/-- Runs `body i`, `body (i+1)`, … for `count` consecutive indices. -/
def loop {σ : Type} (body : Nat → σ → Except Fault σ) : Nat → Nat → σ → Except Fault σ
  | 0, _, s => .ok s
  | count + 1, i, s => body i s >>= loop body count (i + 1)

/-- The loop `for (int i = lo; i < hi; i++) body`. -/
def forLoop {σ : Type} (lo hi : Nat) (body : Nat → σ → Except Fault σ) (s : σ) :
    Except Fault σ :=
  loop body (hi - lo) lo s

section Kernel

variable {α : Type} [Field α] [DecidableEq α]

/-- Lines 67-70: `for i, for k: R.v[i * n + k] = 0`. -/
def zeroFill (n : Nat) (Rv : List α) : Except Fault (List α) :=
  forLoop 0 n (fun i Rv => forLoop 0 n (fun k Rv => wr Rv (i * n + k) 0) Rv) Rv

/-- Lines 72-73: `for i: R.v[i * n + i] = 1`. -/
def unitDiagonal (n : Nat) (Rv : List α) : Except Fault (List α) :=
  forLoop 0 n (fun i Rv => wr Rv (i * n + i) 1) Rv

/-- Lines 77-79: `norm = 0; for k: norm += Q.v[i*n+k] * Q.v[i*n+k]`. -/
def sumSquares (n i : Nat) (Qv : List α) : Except Fault α :=
  forLoop 0 n (fun k norm => do
    let x ← rd Qv (i * n + k)
    let y ← rd Qv (i * n + k)
    pure (norm + x * y)) 0

/-- Lines 81-82: `for k: Q.v[i*n+k] /= norm`. -/
def normalizeColumn (n i : Nat) (norm : α) (Qv : List α) : Except Fault (List α) :=
  forLoop 0 n (fun k Qv => do
    let x ← rd Qv (i * n + k)
    let y ← divide x norm
    wr Qv (i * n + k) y) Qv

/-- Lines 90-92: `q_i_dot_q_j = 0; for k: q_i_dot_q_j += Q.v[i*n+k] * Q.v[j*n+k]`. -/
def dotColumns (n i j : Nat) (Qv : List α) : Except Fault α :=
  forLoop 0 n (fun k acc => do
    let x ← rd Qv (i * n + k)
    let y ← rd Qv (j * n + k)
    pure (acc + x * y)) 0

/-- Lines 93-94: `for k: Q.v[j*n+k] -= q_i_dot_q_j * Q.v[i*n+k]`. -/
def subtractProjection (n i j : Nat) (d : α) (Qv : List α) : Except Fault (List α) :=
  forLoop 0 n (fun k Qv => do
    let x ← rd Qv (j * n + k)
    let y ← rd Qv (i * n + k)
    wr Qv (j * n + k) (x - d * y)) Qv

/-- Lines 89-96: the body of the inner loop for one trailing column `j`. -/
def updateColumn (n i j : Nat) (s : List α × List α) : Except Fault (List α × List α) := do
  let d ← dotColumns n i j s.1
  let Qv ← subtractProjection n i j d s.1
  let r ← rd s.2 (j * n + i)
  let Rv ← wr s.2 (j * n + i) (r + d)
  pure (Qv, Rv)

/-- Lines 75-97: the body of the main loop for one column `i`. -/
def gramSchmidtStep (sqrt : α → α) (n i : Nat) (s : List α × List α) :
    Except Fault (List α × List α) := do
  let norm ← sumSquares n i s.1
  let norm := sqrt norm
  let Qv ← normalizeColumn n i norm s.1
  let r ← rd s.2 (i * n + i)
  let Rv ← wr s.2 (i * n + i) (r * norm)
  forLoop (i + 1) n (updateColumn n i) (Qv, Rv)

/-- The routine `qr_decomposition(A, Q, R)` (qr_algorithm.cpp:58-98); the result is the
pair of the output parameters `(Q, R)`. -/
def qr_decomposition (sqrt : α → α) (A Q R : Matrix α) :
    Except Fault (Matrix α × Matrix α) := do
  if A.n ≠ Q.n then throw Fault.assertion
  let n := A.n
  let Q : Matrix α := A
  let Rv ← zeroFill n R.v
  let Rv ← unitDiagonal n Rv
  let s ← forLoop 0 n (gramSchmidtStep sqrt n) (Q.v, Rv)
  pure (⟨Q.n, s.1⟩, ⟨R.n, s.2⟩)

/-- Lines 111-114: `sum = 0; for k: sum += A.v[i*n+k] * B.v[j*n+k]`. -/
def rowDotColumn (n i j : Nat) (Av Bv : List α) : Except Fault α :=
  forLoop 0 n (fun k sum => do
    let x ← rd Av (i * n + k)
    let y ← rd Bv (j * n + k)
    pure (sum + x * y)) 0

/-- The routine `multiply(A, B, C)` (qr_algorithm.cpp:100-119); the result is the output
parameter `C`. -/
def multiply (A B C : Matrix α) : Except Fault (Matrix α) := do
  if A.n ≠ B.n then throw Fault.assertion
  if A.n ≠ C.n then throw Fault.assertion
  let n := A.n
  let Cv ← forLoop 0 n (fun j Cv =>
    forLoop 0 n (fun i Cv => do
      let sum ← rowDotColumn n i j A.v B.v
      wr Cv (j * n + i) sum) Cv) C.v
  pure ⟨C.n, Cv⟩

/-- The buffers owned by `main` (qr_algorithm.cpp:135-138). -/
structure Buffers (α : Type) where
  A : Matrix α
  A_next : Matrix α
  Q : Matrix α
  R : Matrix α

/-- One round of the driver loop (qr_algorithm.cpp:144-146):
`qr_decomposition(A, Q, R); multiply(R, Q, A_next); std::swap(A, A_next)`. -/
def round (sqrt : α → α) (s : Buffers α) : Except Fault (Buffers α) := do
  let qr ← qr_decomposition sqrt s.A s.Q s.R
  let C ← multiply qr.2 qr.1 s.A_next
  pure ⟨C, s.A, qr.1, qr.2⟩

/-- The driver loop `for (int k = 0; k < iterations; k++)` (qr_algorithm.cpp:143-147). -/
def driver (sqrt : α → α) (iterations : Nat) (s : Buffers α) : Except Fault (Buffers α) :=
  forLoop 0 iterations (fun _ s => round sqrt s) s

end Kernel

section Loader

variable {α : Type} [Zero α]

/-- The routine `load_matrix` (qr_algorithm.cpp:21-45) on the parsed contents of an opened
file: the header `m n n_values` and the entries `(i, j, v)` in file order. The entry
indices are the signed integers the file holds; an entry the file does not have is the
fault `Fault.outOfRange`. -/
def load_matrix (m n n_values : Nat) (entries : List (Int × Int × α)) :
    Except Fault (Matrix α) := do
  if m ≠ n then throw Fault.assertion
  let M : Matrix α := Matrix.init n 0
  let v ← forLoop 0 n_values (fun k v => do
    let e ← rd entries k
    let i := e.1 - 1
    let j := e.2.1 - 1
    if ¬ (0 ≤ i ∧ i < n) then throw Fault.assertion
    if ¬ (0 ≤ j ∧ j < n) then throw Fault.assertion
    wr v (i.toNat * n + j.toNat) e.2.2) M.v
  pure ⟨M.n, v⟩

end Loader

/-- The class `qr::Vec` (math.hpp:23-115): a dimension, the sorted positions of the stored
entries and their values. -/
structure Vec (α : Type) where
  n : Nat
  indices : List Nat
  values : List α
  deriving DecidableEq, Repr

/-- The method `nvals()` (math.hpp:107-109). -/
def Vec.nvals {α : Type} (x : Vec α) : Nat := x.indices.length

/-- The method `dim()` (math.hpp:103-105). -/
def Vec.dim {α : Type} (x : Vec α) : Nat := x.n

section Sparse

variable {α : Type} [Field α]

/-- The `while` loop of `Vec::dot` (math.hpp:44-53), entered with the counters `i`, `j` and
the accumulator `result`; `x` is `*this`. -/
def Vec.dotLoop (x v : Vec α) (i j : Nat) (result : α) : Except Fault α :=
  if i ≠ x.nvals ∧ j ≠ v.nvals then
    if hi : i < x.indices.length then
      if hj : j < v.indices.length then
        if x.indices[i] = v.indices[j] then do
          let a ← rd x.values i
          let b ← rd x.values j
          Vec.dotLoop x v (i + 1) (j + 1) (result + a * b)
        else if x.indices[i] < v.indices[j] then
          Vec.dotLoop x v (i + 1) j result
        else
          Vec.dotLoop x v i (j + 1) result
      else .error .outOfRange
    else .error .outOfRange
  else .ok result
termination_by (x.indices.length - i) + (v.indices.length - j)

/-- The method `Vec::dot` (math.hpp:36-56) called on `x` with the argument `v`. -/
def Vec.dot (x v : Vec α) : Except Fault α :=
  Vec.dotLoop x v 0 0 0

/-- The `while` loop of `Vec::project` (math.hpp:83-98), entered with the counters `i`, `j`
and the two result vectors built so far; `x` is `*this`. -/
def Vec.projectLoop (x q : Vec α) (alpha : α) (i j : Nat) (res_indices : List Nat)
    (res_values : List α) : Except Fault (List Nat × List α) :=
  if i ≠ x.nvals ∧ j ≠ q.nvals then
    if hi : i < x.indices.length then
      if hj : j < q.indices.length then
        if x.indices[i] = q.indices[j] then do
          let a ← rd x.values i
          let b ← rd q.values j
          Vec.projectLoop x q alpha (i + 1) (j + 1) (res_indices ++ [i])
            (res_values ++ [a - alpha * b])
        else if x.indices[i] < q.indices[j] then do
          let a ← rd x.values i
          Vec.projectLoop x q alpha (i + 1) j (res_indices ++ [i]) (res_values ++ [a])
        else do
          let b ← rd q.values j
          Vec.projectLoop x q alpha i (j + 1) (res_indices ++ [j])
            (res_values ++ [-alpha * b])
      else .error .outOfRange
    else .error .outOfRange
  else .ok (res_indices, res_values)
termination_by (x.indices.length - i) + (q.indices.length - j)

/-- The method `Vec::project` (math.hpp:74-101) called on `x` with the arguments `alpha`
and `q`. -/
def Vec.project (x : Vec α) (alpha : α) (q : Vec α) : Except Fault (Vec α) := do
  let res ← Vec.projectLoop x q alpha 0 0 [] []
  pure ⟨x.dim, res.1, res.2⟩

end Sparse

/-- The entry at position `t` of the vector that a sparse vector stands for: the value stored
with the index `t`, and `0` when `t` is not stored. -/
def Vec.valueAt {α : Type} [Zero α] (x : Vec α) (t : Nat) : α :=
  ((x.indices.zip x.values).lookup t).getD 0

/-- The inner-loop body of step `i` (lines 89-96) executed for the columns of `order`, one
after the other in that order: a schedule of the `omp parallel for` region. -/
def updateColumnsInOrder {α : Type} [Field α] (n i : Nat) (order : List Nat)
    (s : List α × List α) : Except Fault (List α × List α) :=
  order.foldlM (fun s j => updateColumn n i j s) s

/-! ## Specification vocabulary -/

/-- Dot product of columns `i` and `j` of a column-major buffer. -/
def colDot {α : Type} [Field α] (n : Nat) (v : List α) (i j : Nat) : α :=
  ∑ k in Finset.range n, v.getD (i * n + k) 0 * v.getD (j * n + k) 0

/-- The matrix a buffer holds when read column-major: entry `(row, col)` is
`v[col * n + row]`. -/
def colMajor {α : Type} [Zero α] (n : Nat) (v : List α) : SqMat n α :=
  Matrix.of fun row col => v.getD (col.val * n + row.val) 0

/-- The matrix a buffer holds when read row-major: entry `(row, col)` is
`v[row * n + col]`. -/
def rowMajor {α : Type} [Zero α] (n : Nat) (v : List α) : SqMat n α :=
  Matrix.of fun row col => v.getD (row.val * n + col.val) 0

/-- The columns `v[j*n .. j*n+n-1]`, `j < n`, of a column-major buffer are linearly
independent over `ℝ`. -/
def ColumnsIndependent (n : Nat) (v : List ℝ) : Prop :=
  LinearIndependent ℝ (fun j : Fin n => fun k : Fin n => v.getD (j.val * n + k.val) 0)

/-- A matrix object of dimension `n` whose buffer has the `n * n` cells its constructor
allocates. -/
def Matrix.Sized {α : Type} (n : Nat) (M : Matrix α) : Prop :=
  M.n = n ∧ M.v.length = n * n

/-- All four buffers of the driver are sized matrices of the same dimension `n`. -/
def Buffers.Sized {α : Type} (n : Nat) (s : Buffers α) : Prop :=
  s.A.Sized n ∧ s.A_next.Sized n ∧ s.Q.Sized n ∧ s.R.Sized n

/-- Column `j` of `A` is the combination of the columns of `Q` with the coefficients found
in row `j` of the buffer of `R`. -/
def Recon {α : Type} [Field α] (n : Nat) (Av Qv Rv : List α) : Prop :=
  ∀ j k, j < n → k < n →
    Av.getD (j * n + k) 0
      = ∑ m in Finset.range n, Rv.getD (j * n + m) 0 * Qv.getD (m * n + k) 0

/-- What holds before step `i` of the main loop of `qr_decomposition`. -/
structure StepInv (n : Nat) (Av : List ℝ) (i : Nat) (s : List ℝ × List ℝ) : Prop where
  lenQ : s.1.length = n * n
  lenR : s.2.length = n * n
  recon : Recon n Av s.1 s.2
  ident : ∀ c m, c < n → m < n → i ≤ m → s.2.getD (c * n + m) 0 = if c = m then 1 else 0
  lower : ∀ c m, c < n → m < n → c < m → s.2.getD (c * n + m) 0 = 0
  orth : ∀ a b, a < i → b < n → a ≠ b → colDot n s.1 a b = 0
  unit : ∀ a, a < i → colDot n s.1 a a = 1

/-- What holds inside step `i` before the inner loop handles column `j`. -/
structure ColInv (n : Nat) (Av : List ℝ) (i j : Nat) (s : List ℝ × List ℝ) : Prop where
  lenQ : s.1.length = n * n
  lenR : s.2.length = n * n
  recon : Recon n Av s.1 s.2
  ident : ∀ c m, c < n → m < n → i < m → s.2.getD (c * n + m) 0 = if c = m then 1 else 0
  lower : ∀ c m, c < n → m < n → c < m → s.2.getD (c * n + m) 0 = 0
  orth : ∀ a b, a < i → b < n → a ≠ b → colDot n s.1 a b = 0
  unit : ∀ a, a ≤ i → colDot n s.1 a a = 1
  orthI : ∀ b, i < b → b < j → colDot n s.1 i b = 0

/-- The invariant of the main loop together with the record of the norms divided by so far:
the diagonal of `R` is positive on the finished columns. -/
structure GuardInv (n : Nat) (Av : List ℝ) (i : Nat) (s : List ℝ × List ℝ) : Prop where
  step : StepInv n Av i s
  diag : ∀ a, a < i → 0 < s.2.getD (a * n + a) 0

/-! ## Loops and checked accesses -/

theorem loop_inv {σ : Type} (body : Nat → σ → Except Fault σ) (Inv : Nat → σ → Prop) :
    ∀ (count i : Nat) (s : σ), Inv i s →
      (∀ k t, i ≤ k → k < i + count → Inv k t → ∃ t', body k t = .ok t' ∧ Inv (k + 1) t') →
      ∃ s', loop body count i s = .ok s' ∧ Inv (i + count) s' := by
  intro count
  induction count with
  | zero => intro i s h _; exact ⟨s, rfl, h⟩
  | succ c ih =>
    intro i s h hstep
    obtain ⟨t, ht, hInv⟩ := hstep i s (Nat.le_refl i) (by omega) h
    obtain ⟨s', hs', hI⟩ := ih (i + 1) t hInv
      (fun k u hk hk' hu => hstep k u (by omega) (by omega) hu)
    refine ⟨s', ?_, ?_⟩
    · show (body i s >>= loop body c (i + 1)) = .ok s'
      rw [ht]; exact hs'
    · have e : i + (c + 1) = i + 1 + c := by omega
      rw [e]; exact hI

/-- Invariant rule for `forLoop`: the loop runs to completion and establishes the
invariant at the upper bound. -/
theorem forLoop_inv {σ : Type} (Inv : Nat → σ → Prop) (lo hi : Nat) (hle : lo ≤ hi)
    (body : Nat → σ → Except Fault σ) (s : σ) (h0 : Inv lo s)
    (hstep : ∀ k t, lo ≤ k → k < hi → Inv k t → ∃ t', body k t = .ok t' ∧ Inv (k + 1) t') :
    ∃ s', forLoop lo hi body s = .ok s' ∧ Inv hi s' := by
  obtain ⟨s', h1, h2⟩ := loop_inv body Inv (hi - lo) lo s h0
    (fun k t hk hk' ht => hstep k t hk (by omega) ht)
  refine ⟨s', h1, ?_⟩
  have e : lo + (hi - lo) = hi := by omega
  rw [e] at h2; exact h2

theorem rd_ok {α : Type} [Zero α] (v : List α) (i : Nat) (h : i < v.length) :
    rd v i = .ok (v.getD i 0) := by
  simp [rd, h, List.getD_eq_getElem?_getD]

theorem wr_ok {α : Type} (v : List α) (i : Nat) (x : α) (h : i < v.length) :
    wr v i x = .ok (v.set i x) := by
  simp [wr, h]

theorem getD_set {α : Type} [Zero α] (v : List α) (i j : Nat) (x : α) (h : i < v.length) :
    (v.set i x).getD j 0 = if i = j then x else v.getD j 0 := by
  simp only [List.getD_eq_getElem?_getD, List.getElem?_set, h, if_true]
  split <;> simp

/-- Distinct in-range `(column, row)` pairs address distinct cells of the flat buffer. -/
theorem cell_inj {n j k j' k' : Nat} (hk : k < n) (hk' : k' < n)
    (h : j * n + k = j' * n + k') : j = j' ∧ k = k' := by
  have hn : 0 < n := by omega
  have h1 : (j * n + k) / n = j := by
    rw [Nat.add_comm, Nat.add_mul_div_right _ _ hn, Nat.div_eq_of_lt hk, Nat.zero_add]
  have h2 : (j' * n + k') / n = j' := by
    rw [Nat.add_comm, Nat.add_mul_div_right _ _ hn, Nat.div_eq_of_lt hk', Nat.zero_add]
  have hj : j = j' := by rw [← h1, ← h2, h]
  subst hj
  exact ⟨rfl, by omega⟩

theorem cell_lt {n j k : Nat} (hj : j < n) (hk : k < n) : j * n + k < n * n := by
  have : (j + 1) * n ≤ n * n := Nat.mul_le_mul_right n hj
  have e : (j + 1) * n = j * n + n := by ring
  omega

/-- Two buffers of `n * n` cells that agree on every cell are equal. -/
theorem buffer_ext {α : Type} [Zero α] {n : Nat} {u v : List α}
    (hu : u.length = n * n) (hv : v.length = n * n)
    (h : ∀ j k, j < n → k < n → u.getD (j * n + k) 0 = v.getD (j * n + k) 0) : u = v := by
  apply List.ext_getElem (by rw [hu, hv])
  intro i h1 h2
  have hn : 0 < n := by
    rcases Nat.eq_zero_or_pos n with h0 | h0
    · subst h0; simp at hu; omega
    · exact h0
  have hi : i < n * n := by omega
  have hj : i / n < n := Nat.div_lt_of_lt_mul hi
  have hk : i % n < n := Nat.mod_lt _ hn
  have e : i / n * n + i % n = i := by
    rw [Nat.mul_comm]; exact Nat.div_add_mod i n
  have := h (i / n) (i % n) hj hk
  rw [e] at this
  simpa [List.getD_eq_getElem?_getD, List.getElem?_eq_getElem h1,
    List.getElem?_eq_getElem h2] using this

section LoopSpecs

variable {α : Type} [Field α] [DecidableEq α]

/-! ## What each loop computes -/

theorem column_le {n i : Nat} (hi : i < n) : i * n + n ≤ n * n := by
  have : (i + 1) * n ≤ n * n := Nat.mul_le_mul_right n hi
  have e : (i + 1) * n = i * n + n := by ring
  omega

/-- The accumulation loop shared by `sumSquares`, `dotColumns` and `rowDotColumn`. -/
theorem dotLoop_ok (U V : List α) (a b n : Nat) (hU : a + n ≤ U.length)
    (hV : b + n ≤ V.length) :
    forLoop 0 n (fun k acc => do
      let x ← rd U (a + k)
      let y ← rd V (b + k)
      pure (acc + x * y)) 0
      = .ok (∑ k in Finset.range n, U.getD (a + k) 0 * V.getD (b + k) 0) := by
  obtain ⟨s, hs, hI⟩ := forLoop_inv
    (fun m acc => acc = ∑ k in Finset.range m, U.getD (a + k) 0 * V.getD (b + k) 0)
    0 n (Nat.zero_le n)
    (fun k acc => do
      let x ← rd U (a + k)
      let y ← rd V (b + k)
      pure (acc + x * y)) 0 (by simp)
    (by
      intro k t _ hk ht
      refine ⟨t + U.getD (a + k) 0 * V.getD (b + k) 0, ?_, ?_⟩
      · beta_reduce
        rw [rd_ok U (a + k) (by omega), rd_ok V (b + k) (by omega)]
        rfl
      · beta_reduce
        rw [Finset.sum_range_succ, ht])
  rw [hs, hI]

theorem sumSquares_ok (n i : Nat) (Qv : List α) (hi : i < n) (hlen : Qv.length = n * n) :
    sumSquares n i Qv
      = .ok (∑ k in Finset.range n, Qv.getD (i * n + k) 0 * Qv.getD (i * n + k) 0) :=
  dotLoop_ok Qv Qv (i * n) (i * n) n (by have := column_le hi; omega)
    (by have := column_le hi; omega)

theorem dotColumns_ok (n i j : Nat) (Qv : List α) (hi : i < n) (hj : j < n)
    (hlen : Qv.length = n * n) :
    dotColumns n i j Qv
      = .ok (∑ k in Finset.range n, Qv.getD (i * n + k) 0 * Qv.getD (j * n + k) 0) :=
  dotLoop_ok Qv Qv (i * n) (j * n) n (by have := column_le hi; omega)
    (by have := column_le hj; omega)

theorem rowDotColumn_ok (n i j : Nat) (Av Bv : List α) (hi : i < n) (hj : j < n)
    (hA : Av.length = n * n) (hB : Bv.length = n * n) :
    rowDotColumn n i j Av Bv
      = .ok (∑ k in Finset.range n, Av.getD (i * n + k) 0 * Bv.getD (j * n + k) 0) :=
  dotLoop_ok Av Bv (i * n) (j * n) n (by have := column_le hi; omega)
    (by have := column_le hj; omega)

theorem normalizeColumn_ok (n i : Nat) (norm : α) (Qv : List α) (hi : i < n)
    (hlen : Qv.length = n * n) (hnorm : norm ≠ 0) :
    ∃ Qv', normalizeColumn n i norm Qv = .ok Qv' ∧ Qv'.length = n * n ∧
      ∀ j k, j < n → k < n →
        Qv'.getD (j * n + k) 0
          = if j = i then Qv.getD (j * n + k) 0 / norm else Qv.getD (j * n + k) 0 := by
  obtain ⟨s, hs, hI⟩ := forLoop_inv
    (fun m (T : List α) => T.length = n * n ∧ ∀ j k, j < n → k < n →
      T.getD (j * n + k) 0
        = if j = i ∧ k < m then Qv.getD (j * n + k) 0 / norm else Qv.getD (j * n + k) 0)
    0 n (Nat.zero_le n)
    (fun k Qv => do
      let x ← rd Qv (i * n + k)
      let y ← divide x norm
      wr Qv (i * n + k) y) Qv ⟨hlen, by simp⟩
    (by
      intro m T _ hm ⟨hT, hcells⟩
      have hin : i * n + m < T.length := by rw [hT]; exact cell_lt hi hm
      refine ⟨T.set (i * n + m) (T.getD (i * n + m) 0 / norm), ?_, ?_, ?_⟩
      · beta_reduce
        rw [rd_ok T _ hin]
        simp [divide, hnorm, wr, hin, bind, Except.bind]
      · simpa using hT
      · intro j k hj hk
        rw [getD_set _ _ _ _ hin]
        by_cases hc : i * n + m = j * n + k
        · obtain ⟨rfl, rfl⟩ := cell_inj hm hk hc
          rw [if_pos rfl, hcells i m hi hm]
          simp
        · have hne : ¬ (j = i ∧ k = m) := by
            rintro ⟨rfl, rfl⟩; exact hc rfl
          rw [if_neg hc, hcells j k hj hk]
          by_cases hji : j = i
          · subst hji
            have hkm : k ≠ m := fun h => hne ⟨rfl, h⟩
            have e : (k < m + 1) = (k < m) := by
              apply propext; constructor <;> intro h <;> omega
            simp [e]
          · simp [hji])
  refine ⟨s, hs, hI.1, ?_⟩
  intro j k hj hk
  rw [hI.2 j k hj hk]
  by_cases hji : j = i <;> simp [hji, hk]

theorem subtractProjection_ok (n i j : Nat) (d : α) (Qv : List α) (hi : i < n) (hj : j < n)
    (hij : i ≠ j) (hlen : Qv.length = n * n) :
    ∃ Qv', subtractProjection n i j d Qv = .ok Qv' ∧ Qv'.length = n * n ∧
      ∀ c k, c < n → k < n →
        Qv'.getD (c * n + k) 0
          = if c = j then Qv.getD (j * n + k) 0 - d * Qv.getD (i * n + k) 0
            else Qv.getD (c * n + k) 0 := by
  obtain ⟨s, hs, hI⟩ := forLoop_inv
    (fun m (T : List α) => T.length = n * n ∧ ∀ c k, c < n → k < n →
      T.getD (c * n + k) 0
        = if c = j ∧ k < m then Qv.getD (j * n + k) 0 - d * Qv.getD (i * n + k) 0
          else Qv.getD (c * n + k) 0)
    0 n (Nat.zero_le n)
    (fun k Qv => do
      let x ← rd Qv (j * n + k)
      let y ← rd Qv (i * n + k)
      wr Qv (j * n + k) (x - d * y)) Qv ⟨hlen, by simp⟩
    (by
      intro m T _ hm ⟨hT, hcells⟩
      have hin : j * n + m < T.length := by rw [hT]; exact cell_lt hj hm
      have hin' : i * n + m < T.length := by rw [hT]; exact cell_lt hi hm
      refine ⟨T.set (j * n + m) (T.getD (j * n + m) 0 - d * T.getD (i * n + m) 0), ?_, ?_, ?_⟩
      · beta_reduce
        rw [rd_ok T _ hin, rd_ok T _ hin']
        simp [wr, hin, bind, Except.bind]
      · simpa using hT
      · intro c k hc hk
        rw [getD_set _ _ _ _ hin]
        by_cases hcell : j * n + m = c * n + k
        · obtain ⟨rfl, rfl⟩ := cell_inj hm hk hcell
          rw [if_pos rfl, hcells j m hj hm, hcells i m hi hm]
          simp [hij]
        · have hne : ¬ (c = j ∧ k = m) := by
            rintro ⟨rfl, rfl⟩; exact hcell rfl
          rw [if_neg hcell, hcells c k hc hk]
          by_cases hcj : c = j
          · subst hcj
            have hkm : k ≠ m := fun h => hne ⟨rfl, h⟩
            have e : (k < m + 1) = (k < m) := by
              apply propext; constructor <;> intro h <;> omega
            simp [e]
          · simp [hcj])
  refine ⟨s, hs, hI.1, ?_⟩
  intro c k hc hk
  rw [hI.2 c k hc hk]
  by_cases hcj : c = j <;> simp [hcj, hk]

end LoopSpecs

section FillSpecs

variable {α : Type} [Field α] [DecidableEq α]

theorem zeroFill_ok (n : Nat) (Rv : List α) (hlen : Rv.length = n * n) :
    ∃ Rv', zeroFill n Rv = .ok Rv' ∧ Rv'.length = n * n ∧
      ∀ j k, j < n → k < n → Rv'.getD (j * n + k) 0 = 0 := by
  obtain ⟨s, hs, hI⟩ := forLoop_inv
    (fun i (T : List α) => T.length = n * n ∧
      ∀ j k, j < i → k < n → T.getD (j * n + k) 0 = 0)
    0 n (Nat.zero_le n)
    (fun i Rv => forLoop 0 n (fun k Rv => wr Rv (i * n + k) 0) Rv) Rv
    ⟨hlen, fun j k hj _ => absurd hj (Nat.not_lt_zero j)⟩
    (by
      intro i T _ hi ⟨hT, hrows⟩
      obtain ⟨T', hT', hI'⟩ := forLoop_inv
        (fun m (U : List α) => U.length = n * n ∧
          ∀ j k, k < n → (j < i ∨ (j = i ∧ k < m)) → U.getD (j * n + k) 0 = 0)
        0 n (Nat.zero_le n) (fun k Rv => wr Rv (i * n + k) 0) T
        ⟨hT, fun j k hk h => by
          rcases h with h | ⟨_, h⟩
          · exact hrows j k h hk
          · exact absurd h (Nat.not_lt_zero k)⟩
        (by
          intro m U _ hm ⟨hU, hcells⟩
          have hin : i * n + m < U.length := by rw [hU]; exact cell_lt hi hm
          refine ⟨U.set (i * n + m) 0, wr_ok U _ 0 hin, by simpa using hU, ?_⟩
          intro j k hk h
          rw [getD_set _ _ _ _ hin]
          by_cases hc : i * n + m = j * n + k
          · rw [if_pos hc]
          · rw [if_neg hc]
            apply hcells j k hk
            rcases h with h | ⟨rfl, h⟩
            · exact Or.inl h
            · refine Or.inr ⟨rfl, ?_⟩
              have : k ≠ m := fun e => hc (by rw [e])
              omega)
      refine ⟨T', hT', hI'.1, ?_⟩
      intro j k hj hk
      apply hI'.2 j k hk
      by_cases h : j < i
      · exact Or.inl h
      · exact Or.inr ⟨by omega, hk⟩)
  exact ⟨s, hs, hI.1, fun j k hj hk => hI.2 j k hj hk⟩

theorem unitDiagonal_ok (n : Nat) (Rv : List α) (hlen : Rv.length = n * n) :
    ∃ Rv', unitDiagonal n Rv = .ok Rv' ∧ Rv'.length = n * n ∧
      ∀ j k, j < n → k < n →
        Rv'.getD (j * n + k) 0 = if j = k then 1 else Rv.getD (j * n + k) 0 := by
  obtain ⟨s, hs, hI⟩ := forLoop_inv
    (fun i (T : List α) => T.length = n * n ∧ ∀ j k, j < n → k < n →
      T.getD (j * n + k) 0 = if j = k ∧ j < i then 1 else Rv.getD (j * n + k) 0)
    0 n (Nat.zero_le n) (fun i Rv => wr Rv (i * n + i) 1) Rv ⟨hlen, by simp⟩
    (by
      intro i T _ hi ⟨hT, hcells⟩
      have hin : i * n + i < T.length := by rw [hT]; exact cell_lt hi hi
      refine ⟨T.set (i * n + i) 1, wr_ok T _ 1 hin, by simpa using hT, ?_⟩
      intro j k hj hk
      rw [getD_set _ _ _ _ hin]
      by_cases hc : i * n + i = j * n + k
      · obtain ⟨rfl, rfl⟩ := cell_inj hi hk hc
        simp
      · rw [if_neg hc, hcells j k hj hk]
        by_cases hjk : j = k
        · subst hjk
          have hne : j ≠ i := fun e => hc (by rw [e])
          have e : (j < i + 1) = (j < i) := by
            apply propext; constructor <;> intro h <;> omega
          simp [e]
        · simp [hjk])
  refine ⟨s, hs, hI.1, ?_⟩
  intro j k hj hk
  rw [hI.2 j k hj hk]
  by_cases hjk : j = k
  · subst hjk
    rw [if_pos ⟨rfl, hj⟩, if_pos rfl]
  · rw [if_neg (fun h => hjk h.1), if_neg hjk]

/-- Lines 67-73 leave the identity pattern in `R`, whatever `R` held before. -/
theorem identityFill_ok (n : Nat) (Rv : List α) (hlen : Rv.length = n * n) :
    ∃ Iv, (zeroFill n Rv >>= unitDiagonal n) = .ok Iv ∧ Iv.length = n * n ∧
      ∀ j k, j < n → k < n → Iv.getD (j * n + k) 0 = if j = k then 1 else 0 := by
  obtain ⟨Z, hZ, hZlen, hZcells⟩ := zeroFill_ok n Rv hlen
  obtain ⟨Iv, hIv, hIlen, hIcells⟩ := unitDiagonal_ok n Z hZlen
  refine ⟨Iv, by rw [hZ]; exact hIv, hIlen, ?_⟩
  intro j k hj hk
  rw [hIcells j k hj hk, hZcells j k hj hk]

/-- The main property of `multiply` on the buffers. -/
theorem multiply_ok (n : Nat) (A B C : Matrix α) (hA : A.n = n) (hB : B.n = n) (hC : C.n = n)
    (hAv : A.v.length = n * n) (hBv : B.v.length = n * n) (hCv : C.v.length = n * n) :
    ∃ Cv, multiply A B C = .ok ⟨n, Cv⟩ ∧ Cv.length = n * n ∧
      ∀ i j, i < n → j < n →
        Cv.getD (j * n + i) 0
          = ∑ k in Finset.range n, A.v.getD (i * n + k) 0 * B.v.getD (j * n + k) 0 := by
  obtain ⟨s, hs, hI⟩ := forLoop_inv
    (fun j (T : List α) => T.length = n * n ∧ ∀ i c, i < n → c < j →
      T.getD (c * n + i) 0
        = ∑ k in Finset.range n, A.v.getD (i * n + k) 0 * B.v.getD (c * n + k) 0)
    0 n (Nat.zero_le n)
    (fun j Cv =>
      forLoop 0 n (fun i Cv => do
        let sum ← rowDotColumn n i j A.v B.v
        wr Cv (j * n + i) sum) Cv) C.v
    ⟨hCv, fun i c _ hc => absurd hc (Nat.not_lt_zero c)⟩
    (by
      intro j T _ hj ⟨hT, hcols⟩
      obtain ⟨T', hT', hI'⟩ := forLoop_inv
        (fun m (U : List α) => U.length = n * n ∧ ∀ i c, i < n → (c < j ∨ (c = j ∧ i < m)) →
          U.getD (c * n + i) 0
            = ∑ k in Finset.range n, A.v.getD (i * n + k) 0 * B.v.getD (c * n + k) 0)
        0 n (Nat.zero_le n)
        (fun i Cv => do
          let sum ← rowDotColumn n i j A.v B.v
          wr Cv (j * n + i) sum) T
        ⟨hT, fun i c hi h => by
          rcases h with h | ⟨_, h⟩
          · exact hcols i c hi h
          · exact absurd h (Nat.not_lt_zero i)⟩
        (by
          intro m U _ hm ⟨hU, hcells⟩
          have hin : j * n + m < U.length := by rw [hU]; exact cell_lt hj hm
          refine ⟨U.set (j * n + m)
            (∑ k in Finset.range n, A.v.getD (m * n + k) 0 * B.v.getD (j * n + k) 0),
            ?_, by simpa using hU, ?_⟩
          · beta_reduce
            rw [rowDotColumn_ok n m j A.v B.v hm hj hAv hBv]
            exact wr_ok U _ _ hin
          · intro i c hi h
            rw [getD_set _ _ _ _ hin]
            by_cases hc : j * n + m = c * n + i
            · obtain ⟨rfl, rfl⟩ := cell_inj hm hi hc
              rw [if_pos rfl]
            · rw [if_neg hc]
              apply hcells i c hi
              rcases h with h | ⟨rfl, h⟩
              · exact Or.inl h
              · refine Or.inr ⟨rfl, ?_⟩
                have : i ≠ m := fun e => hc (by rw [e])
                omega)
      refine ⟨T', hT', hI'.1, ?_⟩
      intro i c hi hc
      apply hI'.2 i c hi
      by_cases h : c < j
      · exact Or.inl h
      · exact Or.inr ⟨by omega, hi⟩)
  refine ⟨s, ?_, hI.1, fun i j hi hj => hI.2 i j hi hj⟩
  unfold multiply
  rw [hA, hB, hC] 
  simp only [ne_eq, not_true_eq_false, if_false]
  rw [hs]
  rfl

end FillSpecs

section StepSpecs

variable {α : Type} [Field α] [DecidableEq α]

theorem colDot_comm (n : Nat) (v : List α) (i j : Nat) : colDot n v i j = colDot n v j i := by
  unfold colDot
  exact Finset.sum_congr rfl (fun k _ => mul_comm _ _)

/-- Effect of the inner-loop body (lines 89-96) for the trailing column `j`. -/
theorem updateColumn_ok (n i j : Nat) (Qv Rv : List α) (hi : i < n) (hj : j < n) (hij : i ≠ j)
    (hQ : Qv.length = n * n) (hR : Rv.length = n * n) :
    ∃ Qv' Rv', updateColumn n i j (Qv, Rv) = .ok (Qv', Rv') ∧
      Qv'.length = n * n ∧ Rv'.length = n * n ∧
      (∀ c k, c < n → k < n →
        Qv'.getD (c * n + k) 0
          = if c = j then Qv.getD (j * n + k) 0 - colDot n Qv i j * Qv.getD (i * n + k) 0
            else Qv.getD (c * n + k) 0) ∧
      (∀ c m, c < n → m < n →
        Rv'.getD (c * n + m) 0
          = if c = j ∧ m = i then Rv.getD (j * n + i) 0 + colDot n Qv i j
            else Rv.getD (c * n + m) 0) := by
  obtain ⟨Qv', hQv', hlen', hcells⟩ :=
    subtractProjection_ok n i j (colDot n Qv i j) Qv hi hj hij hQ
  have hin : j * n + i < Rv.length := by rw [hR]; exact cell_lt hj hi
  refine ⟨Qv', Rv.set (j * n + i) (Rv.getD (j * n + i) 0 + colDot n Qv i j), ?_, hlen',
    by simpa using hR, hcells, ?_⟩
  · unfold updateColumn
    rw [dotColumns_ok n i j Qv hi hj hQ]
    show (subtractProjection n i j (colDot n Qv i j) Qv >>= _) = _
    rw [hQv']
    show (rd Rv (j * n + i) >>= _) = _
    rw [rd_ok Rv _ hin]
    show (wr Rv (j * n + i) _ >>= _) = _
    rw [wr_ok Rv _ _ hin]
    rfl
  · intro c m hc hm
    rw [getD_set _ _ _ _ hin]
    by_cases hcell : j * n + i = c * n + m
    · obtain ⟨rfl, rfl⟩ := cell_inj hi hm hcell
      rw [if_pos rfl, if_pos ⟨rfl, rfl⟩]
    · rw [if_neg hcell, if_neg]
      rintro ⟨rfl, rfl⟩
      exact hcell rfl

/-- Effect of lines 77-83 (normalisation of column `i` and scaling of `R[i][i]`) followed by
the inner loop, expressed through the two intermediate buffers. -/
theorem normalize_ok (sqrt : α → α) (n i : Nat) (Qv Rv : List α) (hi : i < n)
    (hQ : Qv.length = n * n) (hR : Rv.length = n * n)
    (hnorm : sqrt (colDot n Qv i i) ≠ 0) :
    ∃ Qv' Rv', gramSchmidtStep sqrt n i (Qv, Rv)
        = forLoop (i + 1) n (updateColumn n i) (Qv', Rv') ∧
      Qv'.length = n * n ∧ Rv'.length = n * n ∧
      (∀ c k, c < n → k < n →
        Qv'.getD (c * n + k) 0
          = if c = i then Qv.getD (c * n + k) 0 / sqrt (colDot n Qv i i)
            else Qv.getD (c * n + k) 0) ∧
      (∀ c m, c < n → m < n →
        Rv'.getD (c * n + m) 0
          = if c = i ∧ m = i then Rv.getD (i * n + i) 0 * sqrt (colDot n Qv i i)
            else Rv.getD (c * n + m) 0) := by
  obtain ⟨Qv', hQv', hlen', hcells⟩ :=
    normalizeColumn_ok n i (sqrt (colDot n Qv i i)) Qv hi hQ hnorm
  have hin : i * n + i < Rv.length := by rw [hR]; exact cell_lt hi hi
  refine ⟨Qv', Rv.set (i * n + i) (Rv.getD (i * n + i) 0 * sqrt (colDot n Qv i i)), ?_, hlen',
    by simpa using hR, hcells, ?_⟩
  · unfold gramSchmidtStep
    rw [sumSquares_ok n i Qv hi hQ]
    show (normalizeColumn n i (sqrt (colDot n Qv i i)) Qv >>= _) = _
    rw [hQv']
    show (rd Rv (i * n + i) >>= _) = _
    rw [rd_ok Rv _ hin]
    show (wr Rv (i * n + i) _ >>= _) = _
    rw [wr_ok Rv _ _ hin]
    rfl
  · intro c m hc hm
    rw [getD_set _ _ _ _ hin]
    by_cases hcell : i * n + i = c * n + m
    · obtain ⟨rfl, rfl⟩ := cell_inj hi hm hcell
      rw [if_pos rfl, if_pos ⟨rfl, rfl⟩]
    · rw [if_neg hcell, if_neg]
      rintro ⟨rfl, rfl⟩
      exact hcell rfl

end StepSpecs

section Algebra

variable {α : Type} [Field α]

theorem recon_iff_matrix (n : Nat) (Av Qv Rv : List α) :
    Recon n Av Qv Rv ↔ colMajor n Av = colMajor n Qv * (rowMajor n Rv).transpose := by
  constructor
  · intro h
    ext r c
    simp only [colMajor, rowMajor, Matrix.mul_apply, Matrix.of_apply, Matrix.transpose_apply]
    rw [h c.val r.val c.isLt r.isLt, Finset.sum_range]
    exact Finset.sum_congr rfl (fun m _ => mul_comm _ _)
  · intro h j k hj hk
    have := congrFun (congrFun h ⟨k, hk⟩) ⟨j, hj⟩
    simp only [colMajor, rowMajor, Matrix.mul_apply, Matrix.of_apply,
      Matrix.transpose_apply] at this
    rw [this, Finset.sum_range]
    exact Finset.sum_congr rfl (fun m _ => mul_comm _ _)

theorem rowMajor_eq_transpose (n : Nat) (v : List α) :
    rowMajor n v = (colMajor n v).transpose := by
  ext r c
  simp [rowMajor, colMajor]

/-- Normalising column `i` and scaling `R[i][i]` keeps the reconstruction identity. -/
theorem recon_normalize (n i : Nat) (Av Qv Rv Qv' Rv' : List α) (c0 : α) (hc0 : c0 ≠ 0)
    (hi : i < n) (hrec : Recon n Av Qv Rv)
    (hid : ∀ c, c < n → c ≠ i → Rv.getD (c * n + i) 0 = 0)
    (hQ' : ∀ c k, c < n → k < n →
      Qv'.getD (c * n + k) 0
        = if c = i then Qv.getD (c * n + k) 0 / c0 else Qv.getD (c * n + k) 0)
    (hR' : ∀ c m, c < n → m < n →
      Rv'.getD (c * n + m) 0
        = if c = i ∧ m = i then Rv.getD (i * n + i) 0 * c0 else Rv.getD (c * n + m) 0) :
    Recon n Av Qv' Rv' := by
  intro j k hj hk
  rw [hrec j k hj hk]
  apply Finset.sum_congr rfl
  intro m hm
  have hm' : m < n := Finset.mem_range.mp hm
  rw [hQ' m k hm' hk, hR' j m hj hm']
  by_cases hmi : m = i
  · subst hmi
    by_cases hjm : j = m
    · subst hjm
      rw [if_pos ⟨rfl, rfl⟩, if_pos rfl]
      field_simp
      ring
    · rw [if_neg (fun h => hjm h.1), if_pos rfl, hid j hj hjm]
      simp
  · rw [if_neg (fun h => hmi h.2), if_neg hmi]

/-- Subtracting the projection from column `j` and recording the coefficient in
`R[j][i]` keeps the reconstruction identity. -/
theorem recon_update (n i j : Nat) (Av Qv Rv Qv' Rv' : List α) (d : α)
    (hi : i < n) (hj : j < n) (hij : i ≠ j) (hrec : Recon n Av Qv Rv)
    (hid : ∀ c, c < n → Rv.getD (c * n + j) 0 = if c = j then 1 else 0)
    (hQ' : ∀ c k, c < n → k < n →
      Qv'.getD (c * n + k) 0
        = if c = j then Qv.getD (j * n + k) 0 - d * Qv.getD (i * n + k) 0
          else Qv.getD (c * n + k) 0)
    (hR' : ∀ c m, c < n → m < n →
      Rv'.getD (c * n + m) 0
        = if c = j ∧ m = i then Rv.getD (j * n + i) 0 + d else Rv.getD (c * n + m) 0) :
    Recon n Av Qv' Rv' := by
  intro c k hc hk
  rw [hrec c k hc hk]
  by_cases hcj : c = j
  · subst hcj
    have hterm : ∀ m ∈ Finset.range n,
        Rv'.getD (c * n + m) 0 * Qv'.getD (m * n + k) 0
          = Rv.getD (c * n + m) 0 * Qv.getD (m * n + k) 0
            + ((if m = i then d * Qv.getD (i * n + k) 0 else 0)
              - (if m = c then d * Qv.getD (i * n + k) 0 else 0)) := by
      intro m hm
      have hm' : m < n := Finset.mem_range.mp hm
      rw [hQ' m k hm' hk, hR' c m hc hm']
      by_cases hmi : m = i
      · subst hmi
        rw [if_pos ⟨rfl, rfl⟩, if_neg hij, if_pos rfl, if_neg hij]
        ring
      · rw [if_neg (fun h => hmi h.2), if_neg hmi]
        by_cases hmc : m = c
        · subst hmc
          rw [if_pos rfl, if_pos rfl, hid m hm', if_pos rfl]
          ring
        · rw [if_neg hmc, if_neg hmc]
          ring
    rw [Finset.sum_congr rfl hterm, Finset.sum_add_distrib, Finset.sum_sub_distrib,
      Finset.sum_ite_eq', Finset.sum_ite_eq', if_pos (Finset.mem_range.mpr hi),
      if_pos (Finset.mem_range.mpr hc)]
    ring
  · apply Finset.sum_congr rfl
    intro m hm
    have hm' : m < n := Finset.mem_range.mp hm
    rw [hQ' m k hm' hk, hR' c m hc hm', if_neg (fun h => hcj h.1)]
    by_cases hmj : m = j
    · subst hmj
      rw [if_pos rfl, hid c hc, if_neg hcj]
      simp
    · rw [if_neg hmj]

end Algebra

/-- With a nonsingular `A`, the reconstruction identity forces every column of `Q` to be
nonzero: the sum of the squares of its entries is positive. -/
theorem colDot_pos_of_recon (n : Nat) (Av Qv Rv : List ℝ)
    (hdet : (colMajor n Av).det ≠ 0) (hrec : Recon n Av Qv Rv) (i : Nat) (hi : i < n) :
    0 < colDot n Qv i i := by
  have hnonneg : ∀ k ∈ Finset.range n, 0 ≤ Qv.getD (i * n + k) 0 * Qv.getD (i * n + k) 0 :=
    fun k _ => mul_self_nonneg _
  rcases (Finset.sum_nonneg hnonneg).lt_or_eq with h | h
  · exact h
  · exfalso
    apply hdet
    have hzero := (Finset.sum_eq_zero_iff_of_nonneg hnonneg).mp h.symm
    rw [(recon_iff_matrix n Av Qv Rv).mp hrec, Matrix.det_mul]
    have : (colMajor n Qv).det = 0 := by
      apply Matrix.det_eq_zero_of_column_eq_zero ⟨i, hi⟩
      intro r
      have := hzero r.val (Finset.mem_range.mpr r.isLt)
      simpa [colMajor] using this
    rw [this, zero_mul]

section DotProducts

variable {α : Type} [Field α]

/-- A dot product of two columns that a step leaves alone is unchanged. -/
theorem colDot_congr (n : Nat) (Qv Qv' : List α) (a b : Nat)
    (ha : ∀ k, k < n → Qv'.getD (a * n + k) 0 = Qv.getD (a * n + k) 0)
    (hb : ∀ k, k < n → Qv'.getD (b * n + k) 0 = Qv.getD (b * n + k) 0) :
    colDot n Qv' a b = colDot n Qv a b := by
  unfold colDot
  apply Finset.sum_congr rfl
  intro k hk
  rw [ha k (Finset.mem_range.mp hk), hb k (Finset.mem_range.mp hk)]

theorem colDot_sub_right (n : Nat) (Qv Qv' : List α) (a i j : Nat) (d : α)
    (ha : ∀ k, k < n → Qv'.getD (a * n + k) 0 = Qv.getD (a * n + k) 0)
    (hj : ∀ k, k < n →
      Qv'.getD (j * n + k) 0 = Qv.getD (j * n + k) 0 - d * Qv.getD (i * n + k) 0) :
    colDot n Qv' a j = colDot n Qv a j - d * colDot n Qv a i := by
  unfold colDot
  rw [Finset.mul_sum, ← Finset.sum_sub_distrib]
  apply Finset.sum_congr rfl
  intro k hk
  rw [ha k (Finset.mem_range.mp hk), hj k (Finset.mem_range.mp hk)]
  ring

theorem colDot_div_right (n : Nat) (Qv Qv' : List α) (a i : Nat) (c0 : α)
    (ha : ∀ k, k < n → Qv'.getD (a * n + k) 0 = Qv.getD (a * n + k) 0)
    (hi : ∀ k, k < n → Qv'.getD (i * n + k) 0 = Qv.getD (i * n + k) 0 / c0) :
    colDot n Qv' a i = colDot n Qv a i / c0 := by
  unfold colDot
  rw [Finset.sum_div]
  apply Finset.sum_congr rfl
  intro k hk
  rw [ha k (Finset.mem_range.mp hk), hi k (Finset.mem_range.mp hk)]
  ring

theorem colDot_div_self (n : Nat) (Qv Qv' : List α) (i : Nat) (c0 : α)
    (hi : ∀ k, k < n → Qv'.getD (i * n + k) 0 = Qv.getD (i * n + k) 0 / c0) :
    colDot n Qv' i i = colDot n Qv i i / (c0 * c0) := by
  unfold colDot
  rw [Finset.sum_div]
  apply Finset.sum_congr rfl
  intro k hk
  rw [hi k (Finset.mem_range.mp hk)]
  by_cases h : c0 = 0
  · subst h; simp
  · field_simp

end DotProducts

/-! ## The Gram-Schmidt invariants (exact real arithmetic) -/

theorem colInv_step (n : Nat) (Av : List ℝ) (i j : Nat) (s : List ℝ × List ℝ)
    (hij : i < j) (hj : j < n) (h : ColInv n Av i j s) :
    ∃ s', updateColumn n i j s = .ok s' ∧ ColInv n Av i (j + 1) s' := by
  obtain ⟨Qv, Rv⟩ := s
  have hi : i < n := by omega
  have hne : i ≠ j := by omega
  obtain ⟨Qv', Rv', hrun, hQlen, hRlen, hQ', hR'⟩ :=
    updateColumn_ok n i j Qv Rv hi hj hne h.lenQ h.lenR
  have keep : ∀ c, c < n → c ≠ j → ∀ k, k < n →
      Qv'.getD (c * n + k) 0 = Qv.getD (c * n + k) 0 := by
    intro c hc hcj k hk
    rw [hQ' c k hc hk, if_neg hcj]
  have upd : ∀ k, k < n →
      Qv'.getD (j * n + k) 0
        = Qv.getD (j * n + k) 0 - colDot n Qv i j * Qv.getD (i * n + k) 0 := by
    intro k hk
    rw [hQ' j k hj hk, if_pos rfl]
  refine ⟨(Qv', Rv'), hrun, ?_⟩
  constructor
  · exact hQlen
  · exact hRlen
  · exact recon_update n i j Av Qv Rv Qv' Rv' (colDot n Qv i j) hi hj hne h.recon
      (fun c hc => h.ident c j hc hj hij) hQ' hR'
  · intro c m hc hm him
    show Rv'.getD (c * n + m) 0 = _
    rw [hR' c m hc hm, if_neg (fun e => by omega)]
    exact h.ident c m hc hm him
  · intro c m hc hm hcm
    show Rv'.getD (c * n + m) 0 = _
    rw [hR' c m hc hm, if_neg (fun e => by omega)]
    exact h.lower c m hc hm hcm
  · intro a b ha hb hab
    show colDot n Qv' a b = 0
    by_cases hbj : b = j
    · subst hbj
      rw [colDot_sub_right n Qv Qv' a i b (colDot n Qv i b)
        (keep a (by omega) (by omega)) upd]
      have h1 : colDot n Qv a b = 0 := h.orth a b ha hb hab
      have h2 : colDot n Qv a i = 0 := h.orth a i ha hi (by omega)
      rw [h1, h2]; ring
    · rw [colDot_congr n Qv Qv' a b (keep a (by omega) (by omega)) (keep b hb hbj)]
      exact h.orth a b ha hb hab
  · intro a ha
    show colDot n Qv' a a = 1
    rw [colDot_congr n Qv Qv' a a (keep a (by omega) (by omega))
      (keep a (by omega) (by omega))]
    exact h.unit a ha
  · intro b hib hbj
    show colDot n Qv' i b = 0
    by_cases hb : b = j
    · subst hb
      rw [colDot_sub_right n Qv Qv' i i b (colDot n Qv i b) (keep i hi hne) upd]
      have h1 : colDot n Qv i i = 1 := h.unit i (Nat.le_refl i)
      rw [h1]; ring
    · rw [colDot_congr n Qv Qv' i b (keep i hi hne) (keep b (by omega) hb)]
      exact h.orthI b hib (by omega)

theorem colInv_init_pos (n : Nat) (Av : List ℝ) (i : Nat) (s : List ℝ × List ℝ)
    (hi : i < n) (h : StepInv n Av i s) (hpos : 0 < colDot n s.1 i i) :
    ∃ s', gramSchmidtStep Real.sqrt n i s = forLoop (i + 1) n (updateColumn n i) s' ∧
      ColInv n Av i (i + 1) s' ∧
      (∀ c m, c < n → m < n →
        s'.2.getD (c * n + m) 0
          = if c = i ∧ m = i then s.2.getD (i * n + i) 0 * Real.sqrt (colDot n s.1 i i)
            else s.2.getD (c * n + m) 0) := by
  obtain ⟨Qv, Rv⟩ := s
  have hnorm : Real.sqrt (colDot n Qv i i) ≠ 0 := (Real.sqrt_pos.mpr hpos).ne'
  obtain ⟨Qv', Rv', hrun, hQlen, hRlen, hQ', hR'⟩ :=
    normalize_ok Real.sqrt n i Qv Rv hi h.lenQ h.lenR hnorm
  have keep : ∀ c, c < n → c ≠ i → ∀ k, k < n →
      Qv'.getD (c * n + k) 0 = Qv.getD (c * n + k) 0 := by
    intro c hc hci k hk
    rw [hQ' c k hc hk, if_neg hci]
  have upd : ∀ k, k < n →
      Qv'.getD (i * n + k) 0 = Qv.getD (i * n + k) 0 / Real.sqrt (colDot n Qv i i) := by
    intro k hk
    rw [hQ' i k hi hk, if_pos rfl]
  refine ⟨(Qv', Rv'), hrun, ?_, hR'⟩
  constructor
  · exact hQlen
  · exact hRlen
  · exact recon_normalize n i Av Qv Rv Qv' Rv' _ hnorm hi h.recon
      (fun c hc hci => by rw [h.ident c i hc hi (Nat.le_refl i), if_neg hci]) hQ' hR'
  · intro c m hc hm him
    show Rv'.getD (c * n + m) 0 = _
    rw [hR' c m hc hm, if_neg (fun e => by omega)]
    exact h.ident c m hc hm (by omega)
  · intro c m hc hm hcm
    show Rv'.getD (c * n + m) 0 = _
    rw [hR' c m hc hm, if_neg (fun e => by omega)]
    exact h.lower c m hc hm hcm
  · intro a b ha hb hab
    show colDot n Qv' a b = 0
    by_cases hbi : b = i
    · subst hbi
      rw [colDot_div_right n Qv Qv' a b _ (keep a (by omega) (by omega)) upd,
        h.orth a b ha hb hab, zero_div]
    · rw [colDot_congr n Qv Qv' a b (keep a (by omega) (by omega)) (keep b hb hbi)]
      exact h.orth a b ha hb hab
  · intro a ha
    show colDot n Qv' a a = 1
    by_cases hai : a = i
    · subst hai
      rw [colDot_div_self n Qv Qv' a _ upd, Real.mul_self_sqrt hpos.le]
      exact div_self hpos.ne'
    · rw [colDot_congr n Qv Qv' a a (keep a (by omega) hai) (keep a (by omega) hai)]
      exact h.unit a (by omega)
  · intro b hib hbj
    omega

theorem colInv_init (n : Nat) (Av : List ℝ) (i : Nat) (s : List ℝ × List ℝ)
    (hdet : (colMajor n Av).det ≠ 0) (hi : i < n) (h : StepInv n Av i s) :
    ∃ s', gramSchmidtStep Real.sqrt n i s = forLoop (i + 1) n (updateColumn n i) s' ∧
      ColInv n Av i (i + 1) s' := by
  obtain ⟨s', hrun, hInv, _⟩ := colInv_init_pos n Av i s hi h
    (colDot_pos_of_recon n Av s.1 s.2 hdet h.recon i hi)
  exact ⟨s', hrun, hInv⟩

/-- Once the inner loop of step `i` is over, the invariant of the main loop holds at
`i + 1`. -/
theorem stepInv_of_colInv (n : Nat) (Av : List ℝ) (i : Nat) (s : List ℝ × List ℝ)
    (hi : i < n) (h2 : ColInv n Av i n s) : StepInv n Av (i + 1) s := by
  constructor
  · exact h2.lenQ
  · exact h2.lenR
  · exact h2.recon
  · intro c m hc hm him
    exact h2.ident c m hc hm (by omega)
  · exact h2.lower
  · intro a b ha hb hab
    by_cases hai : a = i
    · subst hai
      by_cases hlt : a < b
      · exact h2.orthI b hlt hb
      · rw [colDot_comm]
        exact h2.orth b a (by omega) hi (by omega)
    · exact h2.orth a b (by omega) hb hab
  · intro a ha
    exact h2.unit a (by omega)

theorem stepInv_step (n : Nat) (Av : List ℝ) (i : Nat) (s : List ℝ × List ℝ)
    (hdet : (colMajor n Av).det ≠ 0) (hi : i < n) (h : StepInv n Av i s) :
    ∃ s', gramSchmidtStep Real.sqrt n i s = .ok s' ∧ StepInv n Av (i + 1) s' := by
  obtain ⟨s1, hrun, h1⟩ := colInv_init n Av i s hdet hi h
  obtain ⟨s2, hloop, h2⟩ := forLoop_inv (fun j t => ColInv n Av i j t) (i + 1) n (by omega)
    (updateColumn n i) s1 h1
    (fun j t hj hjn ht => colInv_step n Av i j t (by omega) hjn ht)
  exact ⟨s2, by rw [hrun, hloop], stepInv_of_colInv n Av i s2 hi h2⟩

theorem stepInv_zero (n : Nat) (Av Iv : List ℝ) (hA : Av.length = n * n)
    (hI : Iv.length = n * n)
    (hcells : ∀ j k, j < n → k < n → Iv.getD (j * n + k) 0 = if j = k then 1 else 0) :
    StepInv n Av 0 (Av, Iv) := by
  constructor
  · exact hA
  · exact hI
  · intro j k hj hk
    have : ∀ m ∈ Finset.range n,
        Iv.getD (j * n + m) 0 * Av.getD (m * n + k) 0
          = if j = m then Av.getD (m * n + k) 0 else 0 := by
      intro m hm
      rw [hcells j m hj (Finset.mem_range.mp hm)]
      split <;> simp
    rw [Finset.sum_congr rfl this, Finset.sum_ite_eq, if_pos (Finset.mem_range.mpr hj)]
  · intro c m hc hm _
    exact hcells c m hc hm
  · intro c m hc hm hcm
    show Iv.getD (c * n + m) 0 = 0
    rw [hcells c m hc hm, if_neg (by omega)]
  · intro a b ha
    omega
  · intro a ha
    omega

/-- Past its assertion, `qr_decomposition` is the identity fill of `R` followed by the main
loop on `(A.v, R.v)`. -/
theorem qr_decomposition_eq {α : Type} [Field α] [DecidableEq α] (sqrt : α → α)
    (A Q R : Matrix α) (hQ : A.n = Q.n) :
    qr_decomposition sqrt A Q R
      = ((zeroFill A.n R.v >>= unitDiagonal A.n) >>= fun Iv =>
          forLoop 0 A.n (gramSchmidtStep sqrt A.n) (A.v, Iv) >>= fun s =>
            pure (⟨A.n, s.1⟩, ⟨R.n, s.2⟩)) := by
  unfold qr_decomposition
  simp only [ne_eq, hQ, not_true_eq_false, if_false, bind_assoc]
  rfl

/-- Main lemma: on a nonsingular `n × n` input the routine returns, and its outputs
satisfy the invariant at `i = n`. -/
theorem qr_decomposition_spec (n : Nat) (A Q R : Matrix ℝ) (hA : A.n = n)
    (hAv : A.v.length = n * n) (hQ : Q.n = n) (hRv : R.v.length = n * n)
    (hdet : (colMajor n A.v).det ≠ 0) :
    ∃ Qv Rv, qr_decomposition Real.sqrt A Q R = .ok (⟨n, Qv⟩, ⟨R.n, Rv⟩) ∧
      StepInv n A.v n (Qv, Rv) := by
  obtain ⟨Iv, hIv, hIlen, hIcells⟩ := identityFill_ok n R.v hRv
  obtain ⟨s, hs, hInv⟩ := forLoop_inv (fun i t => StepInv n A.v i t) 0 n (Nat.zero_le n)
    (gramSchmidtStep Real.sqrt n) (A.v, Iv) (stepInv_zero n A.v Iv hAv hIlen hIcells)
    (fun i t _ hi ht => stepInv_step n A.v i t hdet hi ht)
  refine ⟨s.1, s.2, ?_, hInv⟩
  rw [qr_decomposition_eq Real.sqrt A Q R (by rw [hA, hQ]), hA, hIv]
  show (forLoop 0 n (gramSchmidtStep Real.sqrt n) (A.v, Iv) >>= _) = _
  rw [hs]
  rfl

/-! ## Linear independence, determinants and concrete square roots -/

theorem columnsIndependent_iff_det (n : Nat) (v : List ℝ) :
    ColumnsIndependent n v ↔ (colMajor n v).det ≠ 0 := by
  have h := Matrix.linearIndependent_rows_iff_isUnit (K := ℝ) (A := rowMajor n v)
  have e : (rowMajor n v).det = (colMajor n v).det := by
    rw [rowMajor_eq_transpose, Matrix.det_transpose]
  unfold ColumnsIndependent
  rw [← e, ← isUnit_iff_ne_zero, ← Matrix.isUnit_iff_isUnit_det]
  exact h

theorem sqrt_four : Real.sqrt 4 = 2 := by
  rw [show (4 : ℝ) = 2 ^ 2 by norm_num]
  exact Real.sqrt_sq (by norm_num)

theorem sqrt_twentyfive : Real.sqrt 25 = 5 := by
  rw [show (25 : ℝ) = 5 ^ 2 by norm_num]
  exact Real.sqrt_sq (by norm_num)

theorem sqrt_fortynine : Real.sqrt 49 = 7 := by
  rw [show (49 : ℝ) = 7 ^ 2 by norm_num]
  exact Real.sqrt_sq (by norm_num)

/-- The columns `(1, 0)` and `(1, 1)` are linearly independent. -/
theorem independent_shear : ColumnsIndependent 2 [1, 0, 1, 1] := by
  rw [columnsIndependent_iff_det, Matrix.det_fin_two]
  simp [colMajor]

/-- The columns `(3, 4)` and `(4, 6)` are linearly independent. -/
theorem independent_sym346 : ColumnsIndependent 2 [3, 4, 4, 6] := by
  rw [columnsIndependent_iff_det, Matrix.det_fin_two]
  simp [colMajor]
  norm_num

/-! ## Runs that may fault: what a returned result still satisfies -/

theorem bind_ok_inv {β γ : Type} (x : Except Fault β) (f : β → Except Fault γ) (c : γ)
    (h : (x >>= f) = .ok c) : ∃ b, x = .ok b ∧ f b = .ok c := by
  cases x with
  | error e => exact absurd h (by simp [bind, Except.bind])
  | ok b => exact ⟨b, rfl, h⟩

theorem loop_preserves {σ : Type} (P : σ → Prop) (body : Nat → σ → Except Fault σ)
    (hbody : ∀ i s s', P s → body i s = .ok s' → P s') :
    ∀ (count i : Nat) (s s' : σ), P s → loop body count i s = .ok s' → P s' := by
  intro count
  induction count with
  | zero =>
    intro i s s' hP h
    have e : s = s' := by
      have h' : (Except.ok s : Except Fault σ) = .ok s' := h
      injection h'
    rw [← e]; exact hP
  | succ c ih =>
    intro i s s' hP h
    obtain ⟨t, ht, hrest⟩ := bind_ok_inv (body i s) (loop body c (i + 1)) s' h
    exact ih (i + 1) t s' (hbody i s t hP ht) hrest

theorem forLoop_preserves {σ : Type} (P : σ → Prop) (lo hi : Nat)
    (body : Nat → σ → Except Fault σ)
    (hbody : ∀ i s s', P s → body i s = .ok s' → P s') (s s' : σ) (hP : P s)
    (h : forLoop lo hi body s = .ok s') : P s' :=
  loop_preserves P body hbody (hi - lo) lo s s' hP h

theorem wr_length {α : Type} (v v' : List α) (i : Nat) (x : α) (h : wr v i x = .ok v') :
    v'.length = v.length := by
  unfold wr at h
  split at h
  · injection h with h
    rw [← h, List.length_set]
  · exact absurd h (by simp)

section Lengths

variable {α : Type} [Field α] [DecidableEq α]

theorem normalizeColumn_length (n i : Nat) (norm : α) (Qv Qv' : List α)
    (h : normalizeColumn n i norm Qv = .ok Qv') : Qv'.length = Qv.length := by
  refine forLoop_preserves (fun T => T.length = Qv.length) 0 n _ ?_ Qv Qv' rfl h
  intro k T T' hT hb
  obtain ⟨x, _, hb⟩ := bind_ok_inv _ _ _ hb
  obtain ⟨y, _, hb⟩ := bind_ok_inv _ _ _ hb
  rw [wr_length _ _ _ _ hb, hT]

theorem subtractProjection_length (n i j : Nat) (d : α) (Qv Qv' : List α)
    (h : subtractProjection n i j d Qv = .ok Qv') : Qv'.length = Qv.length := by
  refine forLoop_preserves (fun T => T.length = Qv.length) 0 n _ ?_ Qv Qv' rfl h
  intro k T T' hT hb
  obtain ⟨x, _, hb⟩ := bind_ok_inv _ _ _ hb
  obtain ⟨y, _, hb⟩ := bind_ok_inv _ _ _ hb
  rw [wr_length _ _ _ _ hb, hT]

theorem updateColumn_length (n i j : Nat) (s s' : List α × List α)
    (h : updateColumn n i j s = .ok s') :
    s'.1.length = s.1.length ∧ s'.2.length = s.2.length := by
  unfold updateColumn at h
  obtain ⟨d, _, h⟩ := bind_ok_inv _ _ _ h
  obtain ⟨Qv, hQv, h⟩ := bind_ok_inv _ _ _ h
  obtain ⟨r, _, h⟩ := bind_ok_inv _ _ _ h
  obtain ⟨Rv, hRv, h⟩ := bind_ok_inv _ _ _ h
  have e : (Qv, Rv) = s' := by
    have h' : (Except.ok (Qv, Rv) : Except Fault (List α × List α)) = .ok s' := h
    injection h'
  rw [← e]
  exact ⟨subtractProjection_length n i j d s.1 Qv hQv, wr_length _ _ _ _ hRv⟩

theorem gramSchmidtStep_length (sqrt : α → α) (n i : Nat) (s s' : List α × List α)
    (h : gramSchmidtStep sqrt n i s = .ok s') :
    s'.1.length = s.1.length ∧ s'.2.length = s.2.length := by
  unfold gramSchmidtStep at h
  obtain ⟨norm, _, h⟩ := bind_ok_inv _ _ _ h
  obtain ⟨Qv, hQv, h⟩ := bind_ok_inv _ _ _ h
  obtain ⟨r, _, h⟩ := bind_ok_inv _ _ _ h
  obtain ⟨Rv, hRv, h⟩ := bind_ok_inv _ _ _ h
  have h0 : Qv.length = s.1.length := normalizeColumn_length n i _ s.1 Qv hQv
  have h1 : Rv.length = s.2.length := wr_length _ _ _ _ hRv
  have := forLoop_preserves
    (fun t : List α × List α => t.1.length = s.1.length ∧ t.2.length = s.2.length)
    (i + 1) n (updateColumn n i)
    (fun j t t' ht hb => by
      obtain ⟨e1, e2⟩ := updateColumn_length n i j t t' hb
      exact ⟨by rw [e1, ht.1], by rw [e2, ht.2]⟩)
    (Qv, Rv) s' ⟨h0, h1⟩ h
  exact this

/-- Whenever `qr_decomposition` returns on sized inputs, its outputs are sized. -/
theorem qr_decomposition_sized (sqrt : α → α) (n : Nat) (A Q R Q' R' : Matrix α)
    (hA : A.Sized n) (hQ : Q.Sized n) (hR : R.Sized n)
    (h : qr_decomposition sqrt A Q R = .ok (Q', R')) : Q'.Sized n ∧ R'.Sized n := by
  rw [qr_decomposition_eq sqrt A Q R (by rw [hA.1, hQ.1]), hA.1] at h
  obtain ⟨Iv, hIv, hIlen, _⟩ := identityFill_ok n R.v hR.2
  rw [hIv] at h
  replace h : (forLoop 0 n (gramSchmidtStep sqrt n) (A.v, Iv) >>= fun s =>
      (pure (⟨n, s.1⟩, ⟨R.n, s.2⟩) : Except Fault (Matrix α × Matrix α))) = .ok (Q', R') := h
  obtain ⟨s, hs, h⟩ := bind_ok_inv _ _ _ h
  have hlen := forLoop_preserves
    (fun t : List α × List α => t.1.length = n * n ∧ t.2.length = n * n)
    0 n (gramSchmidtStep sqrt n)
    (fun i t t' ht hb => by
      obtain ⟨e1, e2⟩ := gramSchmidtStep_length sqrt n i t t' hb
      exact ⟨by rw [e1, ht.1], by rw [e2, ht.2]⟩)
    (A.v, Iv) s ⟨hA.2, hIlen⟩ hs
  have e : ((⟨n, s.1⟩ : Matrix α), (⟨R.n, s.2⟩ : Matrix α)) = (Q', R') := by
    have h' : (Except.ok ((⟨n, s.1⟩ : Matrix α), (⟨R.n, s.2⟩ : Matrix α))
        : Except Fault (Matrix α × Matrix α)) = .ok (Q', R') := h
    injection h'
  have eQ : Q' = ⟨n, s.1⟩ := (congrArg Prod.fst e).symm
  have eR : R' = ⟨R.n, s.2⟩ := (congrArg Prod.snd e).symm
  rw [eQ, eR]
  exact ⟨⟨rfl, hlen.1⟩, ⟨hR.1, hlen.2⟩⟩

/-- The result of `qr_decomposition` does not depend on what `Q` and `R` held before. -/
theorem qr_decomposition_scratch (sqrt : α → α) (n : Nat) (A Q R Q₂ R₂ : Matrix α)
    (hA : A.n = n) (hQ : Q.Sized n) (hR : R.Sized n) (hQ₂ : Q₂.Sized n) (hR₂ : R₂.Sized n) :
    qr_decomposition sqrt A Q R = qr_decomposition sqrt A Q₂ R₂ := by
  rw [qr_decomposition_eq sqrt A Q R (by rw [hA, hQ.1]),
    qr_decomposition_eq sqrt A Q₂ R₂ (by rw [hA, hQ₂.1]), hA, hR.1, hR₂.1]
  obtain ⟨Iv, hIv, hIlen, hI⟩ := identityFill_ok n R.v hR.2
  obtain ⟨Iv₂, hIv₂, hIlen₂, hI₂⟩ := identityFill_ok n R₂.v hR₂.2
  have e : Iv = Iv₂ := buffer_ext hIlen hIlen₂
    (fun j k hj hk => by rw [hI j k hj hk, hI₂ j k hj hk])
  rw [hIv, hIv₂, e]

/-- The result of `multiply` does not depend on what `C` held before. -/
theorem multiply_scratch (n : Nat) (A B C C₂ : Matrix α) (hA : A.Sized n) (hB : B.Sized n)
    (hC : C.Sized n) (hC₂ : C₂.Sized n) : multiply A B C = multiply A B C₂ := by
  obtain ⟨Cv, hrun, hlen, hcells⟩ := multiply_ok n A B C hA.1 hB.1 hC.1 hA.2 hB.2 hC.2
  obtain ⟨Cv₂, hrun₂, hlen₂, hcells₂⟩ :=
    multiply_ok n A B C₂ hA.1 hB.1 hC₂.1 hA.2 hB.2 hC₂.2
  have e : Cv = Cv₂ := buffer_ext hlen hlen₂
    (fun j k hj hk => by rw [hcells k j hk hj, hcells₂ k j hk hj])
  rw [hrun, hrun₂, e]

/-- Whenever a driver round returns on sized buffers, the new buffers are sized. -/
theorem round_sized (sqrt : α → α) (n : Nat) (s s' : Buffers α) (hs : s.Sized n)
    (h : round sqrt s = .ok s') : s'.Sized n := by
  unfold round at h
  obtain ⟨qr, hqr, h⟩ := bind_ok_inv _ _ _ h
  obtain ⟨C, hC, h⟩ := bind_ok_inv _ _ _ h
  obtain ⟨hQ', hR'⟩ := qr_decomposition_sized sqrt n s.A s.Q s.R qr.1 qr.2 hs.1 hs.2.2.1
    hs.2.2.2 hqr
  obtain ⟨Cv, hrun, hlen, _⟩ :=
    multiply_ok n qr.2 qr.1 s.A_next hR'.1 hQ'.1 hs.2.1.1 hR'.2 hQ'.2 hs.2.1.2
  rw [hrun] at hC
  have eC : C = ⟨n, Cv⟩ := by
    injection hC with hC
    exact hC.symm
  have e : (⟨C, s.A, qr.1, qr.2⟩ : Buffers α) = s' := by
    have h' : (Except.ok (⟨C, s.A, qr.1, qr.2⟩ : Buffers α) : Except Fault (Buffers α))
        = .ok s' := h
    injection h'
  rw [← e, eC]
  exact ⟨⟨rfl, hlen⟩, hs.1, hQ', hR'⟩

/-- A driver round is a function of the current iterate alone. -/
theorem round_scratch (sqrt : α → α) (n : Nat) (s t : Buffers α) (hs : s.Sized n)
    (ht : t.Sized n) (hA : s.A = t.A) : round sqrt s = round sqrt t := by
  unfold round
  rw [← hA, qr_decomposition_scratch sqrt n s.A s.Q s.R t.Q t.R hs.1.1 hs.2.2.1 hs.2.2.2
    ht.2.2.1 ht.2.2.2]
  cases hqr : qr_decomposition sqrt s.A t.Q t.R with
  | error e => rfl
  | ok qr =>
    obtain ⟨hQ', hR'⟩ := qr_decomposition_sized sqrt n s.A t.Q t.R qr.1 qr.2 hs.1 ht.2.2.1
      ht.2.2.2 hqr
    show (multiply qr.2 qr.1 s.A_next >>= _) = (multiply qr.2 qr.1 t.A_next >>= _)
    rw [multiply_scratch n qr.2 qr.1 s.A_next t.A_next hR' hQ' hs.2.1 ht.2.1]

end Lengths

/-! ## The driver loop -/

theorem loop_add {σ : Type} (body : Nat → σ → Except Fault σ) :
    ∀ (a b i : Nat) (s : σ),
      loop body (a + b) i s = loop body a i s >>= loop body b (i + a) := by
  intro a
  induction a with
  | zero =>
    intro b i s
    rw [Nat.zero_add]
    rfl
  | succ a ih =>
    intro b i s
    have e : a + 1 + b = (a + b) + 1 := by omega
    rw [e]
    show (body i s >>= loop body (a + b) (i + 1))
      = (body i s >>= loop body a (i + 1)) >>= loop body b (i + (a + 1))
    rw [bind_assoc]
    congr 1
    funext t
    rw [ih b (i + 1) t]
    have e2 : i + 1 + a = i + (a + 1) := by omega
    rw [e2]

theorem loop_index {σ : Type} (f : σ → Except Fault σ) :
    ∀ (count i i' : Nat) (s : σ),
      loop (fun _ t => f t) count i s = loop (fun _ t => f t) count i' s := by
  intro count
  induction count with
  | zero => intro i i' s; rfl
  | succ c ih =>
    intro i i' s
    show (f s >>= loop (fun _ t => f t) c (i + 1)) = (f s >>= loop (fun _ t => f t) c (i' + 1))
    congr 1
    funext t
    exact ih (i + 1) (i' + 1) t

section Driver

variable {α : Type} [Field α] [DecidableEq α]

theorem driver_add (sqrt : α → α) (j k : Nat) (s : Buffers α) :
    driver sqrt (j + k) s = driver sqrt j s >>= driver sqrt k := by
  unfold driver forLoop
  rw [Nat.sub_zero, Nat.sub_zero, loop_add]
  congr 1
  funext t
  rw [Nat.sub_zero]
  exact loop_index (round sqrt) k (0 + j) 0 t

theorem driver_succ (sqrt : α → α) (k : Nat) (s : Buffers α) :
    driver sqrt (k + 1) s = round sqrt s >>= driver sqrt k := by
  unfold driver forLoop
  rw [Nat.sub_zero, Nat.sub_zero]
  show (round sqrt s >>= loop (fun _ t => round sqrt t) k (0 + 1)) = _
  congr 1
  funext t
  exact loop_index (round sqrt) k (0 + 1) 0 t

/-- Whenever the driver returns on sized buffers, the final buffers are sized. -/
theorem driver_sized (sqrt : α → α) (n k : Nat) (s s' : Buffers α) (hs : s.Sized n)
    (h : driver sqrt k s = .ok s') : s'.Sized n :=
  forLoop_preserves (fun t => t.Sized n) 0 k (fun _ t => round sqrt t)
    (fun _ t t' ht hb => round_sized sqrt n t t' ht hb) s s' hs h

/-- The iterate the driver ends with is a function of the iterate it starts from. -/
theorem driver_scratch (sqrt : α → α) (n k : Nat) (s t : Buffers α) (hs : s.Sized n)
    (ht : t.Sized n) (hA : s.A = t.A) :
    (driver sqrt k s).map (fun u => u.A) = (driver sqrt k t).map (fun u => u.A) := by
  cases k with
  | zero =>
    show Except.ok s.A = Except.ok t.A
    rw [hA]
  | succ k =>
    rw [driver_succ, driver_succ, round_scratch sqrt n s t hs ht hA]

end Driver

/-- With `A` and `B` sized, the buffer `multiply` returns holds `A * B` when `A` is read
row-major and `B` and the result column-major. -/
theorem multiply_matrix {α : Type} [Field α] (n : Nat) (Av Bv Cv : List α)
    (hcells : ∀ i j, i < n → j < n →
      Cv.getD (j * n + i) 0
        = ∑ k in Finset.range n, Av.getD (i * n + k) 0 * Bv.getD (j * n + k) 0) :
    colMajor n Cv = rowMajor n Av * colMajor n Bv := by
  ext r c
  simp only [colMajor, rowMajor, Matrix.mul_apply, Matrix.of_apply]
  rw [hcells r.val c.val r.isLt c.isLt, Finset.sum_range]

/-- One driver round on a nonsingular iterate returns; the old iterate is `Q * Rᵀ` and the
new one is `R * Q`, with `R` read row-major. -/
theorem round_spec (n : Nat) (s : Buffers ℝ) (hs : s.Sized n)
    (hdet : (colMajor n s.A.v).det ≠ 0) :
    ∃ s', round Real.sqrt s = .ok s' ∧ s'.Sized n ∧
      colMajor n s.A.v = colMajor n s'.Q.v * (rowMajor n s'.R.v).transpose ∧
      colMajor n s'.A.v = rowMajor n s'.R.v * colMajor n s'.Q.v := by
  obtain ⟨Qv, Rv, hqr, hInv⟩ := qr_decomposition_spec n s.A s.Q s.R hs.1.1 hs.1.2 hs.2.2.1.1
    hs.2.2.2.2 hdet
  obtain ⟨Cv, hmul, hlen, hcells⟩ := multiply_ok n ⟨s.R.n, Rv⟩ ⟨n, Qv⟩ s.A_next hs.2.2.2.1 rfl
    hs.2.1.1 hInv.lenR hInv.lenQ hs.2.1.2
  refine ⟨⟨⟨n, Cv⟩, s.A, ⟨n, Qv⟩, ⟨s.R.n, Rv⟩⟩, ?_,
    ⟨⟨rfl, hlen⟩, hs.1, ⟨rfl, hInv.lenQ⟩, ⟨hs.2.2.2.1, hInv.lenR⟩⟩,
    (recon_iff_matrix n s.A.v Qv Rv).mp hInv.recon, multiply_matrix n Rv Qv Cv hcells⟩
  unfold round
  rw [hqr]
  show (multiply ⟨s.R.n, Rv⟩ ⟨n, Qv⟩ s.A_next >>= _) = _
  rw [hmul]
  rfl

/-! ## Concrete runs -/

/-- The run of `qr_decomposition` on the matrix with columns `(1, 0)` and `(1, 1)`. -/
theorem qr_run_shear :
    qr_decomposition Real.sqrt ⟨2, [1, 0, 1, 1]⟩ (Matrix.init 2 0) (Matrix.init 2 0)
      = .ok (⟨2, [1, 0, 0, 1]⟩, ⟨2, [1, 0, 1, 1]⟩) := by
  norm_num [qr_decomposition, zeroFill, unitDiagonal, gramSchmidtStep, updateColumn,
    sumSquares, normalizeColumn, dotColumns, subtractProjection, forLoop, loop, rd, wr,
    divide, Matrix.init, bind, Except.bind, pure, Except.pure, List.replicate]

/-- One driver round on the symmetric matrix `[[3, 4], [4, 6]]`. -/
theorem round_run_sym346 :
    round Real.sqrt ⟨⟨2, [3, 4, 4, 6]⟩, Matrix.init 2 0, Matrix.init 2 0, Matrix.init 2 0⟩
      = .ok ⟨⟨2, [3, 116 / 25, -4, -(138 / 25)]⟩, ⟨2, [3, 4, 4, 6]⟩,
          ⟨2, [3 / 5, 4 / 5, -(4 / 5), 3 / 5]⟩, ⟨2, [5, 0, 36 / 5, 2 / 5]⟩⟩ := by
  norm_num [round, multiply, rowDotColumn, qr_decomposition, zeroFill, unitDiagonal,
    gramSchmidtStep, updateColumn, sumSquares, normalizeColumn, dotColumns,
    subtractProjection, forLoop, loop, rd, wr, divide, Matrix.init, bind, Except.bind, pure,
    Except.pure, List.replicate, sqrt_twentyfive, sqrt_four]

/-- The first driver round on the symmetric matrix `[[3, 4], [4, 3]]`. -/
theorem round_run_sym343 :
    round Real.sqrt ⟨⟨2, [3, 4, 4, 3]⟩, Matrix.init 2 0, Matrix.init 2 0, Matrix.init 2 0⟩
      = .ok ⟨⟨2, [3, 4, 4, 3]⟩, ⟨2, [3, 4, 4, 3]⟩,
          ⟨2, [3 / 5, 4 / 5, 4 / 5, -(3 / 5)]⟩, ⟨2, [5, 0, 24 / 5, 7 / 5]⟩⟩ := by
  norm_num [round, multiply, rowDotColumn, qr_decomposition, zeroFill, unitDiagonal,
    gramSchmidtStep, updateColumn, sumSquares, normalizeColumn, dotColumns,
    subtractProjection, forLoop, loop, rd, wr, divide, Matrix.init, bind, Except.bind, pure,
    Except.pure, List.replicate, sqrt_twentyfive, sqrt_fortynine]

/-- Every later driver round on `[[3, 4], [4, 3]]` reproduces the same four buffers. -/
theorem round_fixed_sym343 :
    round Real.sqrt ⟨⟨2, [3, 4, 4, 3]⟩, ⟨2, [3, 4, 4, 3]⟩,
        ⟨2, [3 / 5, 4 / 5, 4 / 5, -(3 / 5)]⟩, ⟨2, [5, 0, 24 / 5, 7 / 5]⟩⟩
      = .ok ⟨⟨2, [3, 4, 4, 3]⟩, ⟨2, [3, 4, 4, 3]⟩,
          ⟨2, [3 / 5, 4 / 5, 4 / 5, -(3 / 5)]⟩, ⟨2, [5, 0, 24 / 5, 7 / 5]⟩⟩ := by
  norm_num [round, multiply, rowDotColumn, qr_decomposition, zeroFill, unitDiagonal,
    gramSchmidtStep, updateColumn, sumSquares, normalizeColumn, dotColumns,
    subtractProjection, forLoop, loop, rd, wr, divide, Matrix.init, bind, Except.bind, pure,
    Except.pure, List.replicate, sqrt_twentyfive, sqrt_fortynine]

/-- A loop whose body ignores the index and maps `s` to itself stays at `s`. -/
theorem loop_fixed {σ : Type} (f : σ → Except Fault σ) (s : σ) (h : f s = .ok s) :
    ∀ (count i : Nat), loop (fun _ t => f t) count i s = .ok s := by
  intro count
  induction count with
  | zero => intro i; rfl
  | succ c ih =>
    intro i
    show (f s >>= loop (fun _ t => f t) c (i + 1)) = .ok s
    rw [h]
    exact ih (i + 1)

/-- The eigenvalues of `[[3, 4], [4, 3]]` are `7` and `-1`. -/
theorem eigenvalues_sym343 (μ : ℝ) :
    Module.End.HasEigenvalue (Matrix.toLin' (colMajor 2 ([3, 4, 4, 3] : List ℝ))) μ
      ↔ μ = 7 ∨ μ = -1 := by
  have hmul : ∀ v : Fin 2 → ℝ,
      Matrix.toLin' (colMajor 2 ([3, 4, 4, 3] : List ℝ)) v
        = ![3 * v 0 + 4 * v 1, 4 * v 0 + 3 * v 1] := by
    intro v
    ext r
    fin_cases r <;>
      simp [Matrix.toLin'_apply, Matrix.mulVec, Matrix.dotProduct, Fin.sum_univ_two, colMajor]
  constructor
  · intro h
    obtain ⟨v, hv⟩ := h.exists_hasEigenvector
    have hmem := Module.End.mem_eigenspace_iff.mp hv.1
    rw [hmul v] at hmem
    have h0 := congrFun hmem 0
    have h1 := congrFun hmem 1
    simp at h0 h1
    by_cases hs : v 0 + v 1 = 0
    · right
      have hd : v 0 - v 1 ≠ 0 := by
        intro hd
        apply hv.2
        ext r
        fin_cases r
        · show v 0 = 0
          linarith
        · show v 1 = 0
          linarith
      have : (μ + 1) * (v 0 - v 1) = 0 := by linear_combination h1 - h0
      rcases mul_eq_zero.mp this with h | h
      · linarith
      · exact absurd h hd
    · left
      have : (μ - 7) * (v 0 + v 1) = 0 := by linear_combination -h0 - h1
      rcases mul_eq_zero.mp this with h | h
      · linarith
      · exact absurd h hs
  · rintro (rfl | rfl)
    · apply Module.End.hasEigenvalue_of_hasEigenvector (x := ![1, 1])
      refine ⟨Module.End.mem_eigenspace_iff.mpr ?_, ?_⟩
      · rw [hmul]
        ext r
        fin_cases r <;> simp <;> norm_num
      · intro h
        have := congrFun h 0
        simp at this
    · apply Module.End.hasEigenvalue_of_hasEigenvector (x := ![1, -1])
      refine ⟨Module.End.mem_eigenspace_iff.mpr ?_, ?_⟩
      · rw [hmul]
        ext r
        fin_cases r <;> simp <;> norm_num
      · intro h
        have := congrFun h 0
        simp at this

/-! ## The `1 × 1` case -/

/-- The run of `qr_decomposition` on a nonzero `1 × 1` matrix. -/
theorem qr_run_scalar (a : ℝ) (ha : a ≠ 0) (Q R : Matrix ℝ) (hQ : Q.Sized 1)
    (hR : R.Sized 1) :
    qr_decomposition Real.sqrt ⟨1, [a]⟩ Q R = .ok (⟨1, [a / |a|]⟩, ⟨1, [|a|]⟩) := by
  obtain ⟨qn, qv⟩ := Q
  obtain ⟨rn, rv⟩ := R
  obtain ⟨hqn, _⟩ := hQ
  obtain ⟨hrn, hrv⟩ := hR
  simp only at hqn hrn hrv
  subst hqn hrn
  obtain ⟨r, rfl⟩ : ∃ r, rv = [r] := by
    match rv, hrv with
    | [r], _ => exact ⟨r, rfl⟩
  have habs : |a| ≠ 0 := abs_ne_zero.mpr ha
  simp [qr_decomposition, zeroFill, unitDiagonal, gramSchmidtStep, updateColumn,
    sumSquares, normalizeColumn, dotColumns, subtractProjection, forLoop, loop, rd, wr,
    divide, bind, Except.bind, pure, Except.pure, Real.sqrt_mul_self_eq_abs, habs, ha]

/-- One driver round on a nonzero `1 × 1` iterate gives the iterate back. -/
theorem round_run_scalar (a : ℝ) (ha : a ≠ 0) (s : Buffers ℝ) (hs : s.Sized 1)
    (hA : s.A = ⟨1, [a]⟩) :
    round Real.sqrt s = .ok ⟨⟨1, [a]⟩, ⟨1, [a]⟩, ⟨1, [a / |a|]⟩, ⟨1, [|a|]⟩⟩ := by
  obtain ⟨A, N, Q, R⟩ := s
  simp only at hA
  subst hA
  obtain ⟨nn, nv⟩ := N
  obtain ⟨hnn, hnv⟩ := hs.2.1
  simp only at hnn hnv
  subst hnn
  obtain ⟨c, rfl⟩ : ∃ c, nv = [c] := by
    match nv, hnv with
    | [c], _ => exact ⟨c, rfl⟩
  have habs : |a| ≠ 0 := abs_ne_zero.mpr ha
  unfold round
  rw [qr_run_scalar a ha Q R hs.2.2.1 hs.2.2.2]
  have e : |a| * (a / |a|) = a := by field_simp
  simp [multiply, rowDotColumn, forLoop, loop, rd, wr, bind, Except.bind, pure, Except.pure, e]

/-! ## What a step leaves alone -/

theorem loop_preserves_range {σ : Type} (P : σ → Prop) (body : Nat → σ → Except Fault σ)
    (lo hi : Nat)
    (hbody : ∀ k s s', lo ≤ k → k < hi → P s → body k s = .ok s' → P s') :
    ∀ (count i : Nat) (s s' : σ), lo ≤ i → i + count ≤ hi → P s →
      loop body count i s = .ok s' → P s' := by
  intro count
  induction count with
  | zero =>
    intro i s s' _ _ hP h
    have e : s = s' := by
      have h' : (Except.ok s : Except Fault σ) = .ok s' := h
      injection h'
    rw [← e]; exact hP
  | succ c ih =>
    intro i s s' hlo hhi hP h
    obtain ⟨t, ht, hrest⟩ := bind_ok_inv (body i s) (loop body c (i + 1)) s' h
    exact ih (i + 1) t s' (by omega) (by omega) (hbody i s t hlo (by omega) hP ht) hrest

/-- Partial-correctness rule for `forLoop` whose body may rely on the loop bounds. -/
theorem forLoop_preserves_range {σ : Type} (P : σ → Prop) (lo hi : Nat)
    (body : Nat → σ → Except Fault σ)
    (hbody : ∀ k s s', lo ≤ k → k < hi → P s → body k s = .ok s' → P s') (s s' : σ)
    (hP : P s) (h : forLoop lo hi body s = .ok s') : P s' := by
  by_cases hle : lo ≤ hi
  · exact loop_preserves_range P body lo hi hbody (hi - lo) lo s s' (Nat.le_refl lo)
      (by omega) hP h
  · have e : hi - lo = 0 := by omega
    unfold forLoop at h
    rw [e] at h
    have e' : s = s' := by
      have h' : (Except.ok s : Except Fault σ) = .ok s' := h
      injection h'
    rw [← e']; exact hP

theorem wr_frame {α : Type} [Zero α] (v v' : List α) (i : Nat) (x : α)
    (h : wr v i x = .ok v') (idx : Nat) (hne : idx ≠ i) : v'.getD idx 0 = v.getD idx 0 := by
  unfold wr at h
  split at h
  · rename_i hin
    injection h with h
    rw [← h, getD_set v i idx x hin, if_neg (fun e => hne e.symm)]
  · exact absurd h (by simp)

section Frames

variable {α : Type} [Field α] [DecidableEq α]

theorem normalizeColumn_frame (n i : Nat) (norm : α) (Qv Qv' : List α)
    (h : normalizeColumn n i norm Qv = .ok Qv') (idx : Nat) (hidx : idx < i * n) :
    Qv'.getD idx 0 = Qv.getD idx 0 := by
  refine forLoop_preserves (fun T => T.getD idx 0 = Qv.getD idx 0) 0 n _ ?_ Qv Qv' rfl h
  intro k T T' hT hb
  obtain ⟨x, _, hb⟩ := bind_ok_inv _ _ _ hb
  obtain ⟨y, _, hb⟩ := bind_ok_inv _ _ _ hb
  rw [wr_frame _ _ _ _ hb idx (by omega), hT]

theorem subtractProjection_frame (n i j : Nat) (d : α) (Qv Qv' : List α)
    (h : subtractProjection n i j d Qv = .ok Qv') (idx : Nat) (hidx : idx < j * n) :
    Qv'.getD idx 0 = Qv.getD idx 0 := by
  refine forLoop_preserves (fun T => T.getD idx 0 = Qv.getD idx 0) 0 n _ ?_ Qv Qv' rfl h
  intro k T T' hT hb
  obtain ⟨x, _, hb⟩ := bind_ok_inv _ _ _ hb
  obtain ⟨y, _, hb⟩ := bind_ok_inv _ _ _ hb
  rw [wr_frame _ _ _ _ hb idx (by omega), hT]

theorem updateColumn_frame (n i j : Nat) (s s' : List α × List α)
    (h : updateColumn n i j s = .ok s') :
    (∀ idx, idx < j * n → s'.1.getD idx 0 = s.1.getD idx 0) ∧
    (∀ idx, idx ≠ j * n + i → s'.2.getD idx 0 = s.2.getD idx 0) := by
  unfold updateColumn at h
  obtain ⟨d, _, h⟩ := bind_ok_inv _ _ _ h
  obtain ⟨Qv, hQv, h⟩ := bind_ok_inv _ _ _ h
  obtain ⟨r, _, h⟩ := bind_ok_inv _ _ _ h
  obtain ⟨Rv, hRv, h⟩ := bind_ok_inv _ _ _ h
  have e : (Qv, Rv) = s' := by
    have h' : (Except.ok (Qv, Rv) : Except Fault (List α × List α)) = .ok s' := h
    injection h'
  rw [← e]
  exact ⟨fun idx hidx => subtractProjection_frame n i j d s.1 Qv hQv idx hidx,
    fun idx hidx => wr_frame _ _ _ _ hRv idx hidx⟩

/-- Frame of one step of the main loop, in flat buffer indices: `Q` keeps every cell before
column `i`, and `R` keeps every cell other than `R.v[j*n+i]`, `i ≤ j < n`. -/
theorem gramSchmidtStep_frame (sqrt : α → α) (n i : Nat) (hi : i < n)
    (s s' : List α × List α) (h : gramSchmidtStep sqrt n i s = .ok s') :
    (∀ idx, idx < i * n → s'.1.getD idx 0 = s.1.getD idx 0) ∧
    (∀ idx, (∀ j, i ≤ j → j < n → idx ≠ j * n + i) → s'.2.getD idx 0 = s.2.getD idx 0) := by
  unfold gramSchmidtStep at h
  obtain ⟨norm, _, h⟩ := bind_ok_inv _ _ _ h
  obtain ⟨Qv, hQv, h⟩ := bind_ok_inv _ _ _ h
  obtain ⟨r, _, h⟩ := bind_ok_inv _ _ _ h
  obtain ⟨Rv, hRv, h⟩ := bind_ok_inv _ _ _ h
  have hloop := forLoop_preserves_range
    (fun t : List α × List α =>
      (∀ idx, idx < i * n → t.1.getD idx 0 = s.1.getD idx 0) ∧
      (∀ idx, (∀ j, i ≤ j → j < n → idx ≠ j * n + i) → t.2.getD idx 0 = s.2.getD idx 0))
    (i + 1) n (updateColumn n i)
    (fun j t t' hlo hhi ht hb => by
      obtain ⟨hq, hr⟩ := updateColumn_frame n i j t t' hb
      refine ⟨fun idx hidx => ?_, fun idx hidx => ?_⟩
      · have hle : i * n ≤ j * n := Nat.mul_le_mul_right n (by omega)
        rw [hq idx (by omega), ht.1 idx hidx]
      · rw [hr idx (hidx j (by omega) hhi), ht.2 idx hidx])
    (Qv, Rv) s'
    ⟨fun idx hidx => normalizeColumn_frame n i _ s.1 Qv hQv idx hidx,
      fun idx hidx => wr_frame _ _ _ _ hRv idx (hidx i (Nat.le_refl i) hi)⟩ h
  exact hloop

/-- Once step `i` is done, the later steps of the main loop leave columns `0 … i` of `Q`
as they are. -/
theorem laterSteps_frame (sqrt : α → α) (n i : Nat) (s s' : List α × List α)
    (h : forLoop (i + 1) n (gramSchmidtStep sqrt n) s = .ok s') :
    ∀ idx, idx < (i + 1) * n → s'.1.getD idx 0 = s.1.getD idx 0 :=
  forLoop_preserves_range
    (fun t : List α × List α => ∀ idx, idx < (i + 1) * n → t.1.getD idx 0 = s.1.getD idx 0)
    (i + 1) n (gramSchmidtStep sqrt n)
    (fun m t t' hlo hhi ht hb idx hidx => by
      have hle : (i + 1) * n ≤ m * n := Nat.mul_le_mul_right n hlo
      rw [(gramSchmidtStep_frame sqrt n m hhi t t' hb).1 idx (by omega), ht idx hidx])
    s s' (fun _ _ => rfl) h

end Frames

/-! ## Order of the trailing-column updates -/

section Order

variable {α : Type} [Field α] [DecidableEq α]

/-- The inner-loop body run for `j` and then for `j'`, as a function of the buffers before
both. -/
theorem updateColumn_twice (n i j j' : Nat) (Qv Rv : List α) (hi : i < n) (hj : j < n)
    (hj' : j' < n) (hij : i ≠ j) (hij' : i ≠ j') (hjj' : j ≠ j')
    (hQ : Qv.length = n * n) (hR : Rv.length = n * n) :
    ∃ Q₂ R₂, (updateColumn n i j (Qv, Rv) >>= updateColumn n i j') = .ok (Q₂, R₂) ∧
      Q₂.length = n * n ∧ R₂.length = n * n ∧
      (∀ c k, c < n → k < n →
        Q₂.getD (c * n + k) 0
          = if c = j then Qv.getD (j * n + k) 0 - colDot n Qv i j * Qv.getD (i * n + k) 0
            else if c = j' then
              Qv.getD (j' * n + k) 0 - colDot n Qv i j' * Qv.getD (i * n + k) 0
            else Qv.getD (c * n + k) 0) ∧
      (∀ c m, c < n → m < n →
        R₂.getD (c * n + m) 0
          = if c = j ∧ m = i then Rv.getD (j * n + i) 0 + colDot n Qv i j
            else if c = j' ∧ m = i then Rv.getD (j' * n + i) 0 + colDot n Qv i j'
            else Rv.getD (c * n + m) 0) := by
  obtain ⟨Q₁, R₁, hrun₁, hQ₁, hR₁, hQc₁, hRc₁⟩ := updateColumn_ok n i j Qv Rv hi hj hij hQ hR
  obtain ⟨Q₂, R₂, hrun₂, hQ₂, hR₂, hQc₂, hRc₂⟩ :=
    updateColumn_ok n i j' Q₁ R₁ hi hj' hij' hQ₁ hR₁
  have keepI : ∀ k, k < n → Q₁.getD (i * n + k) 0 = Qv.getD (i * n + k) 0 := by
    intro k hk
    rw [hQc₁ i k hi hk, if_neg hij]
  have keepJ' : ∀ k, k < n → Q₁.getD (j' * n + k) 0 = Qv.getD (j' * n + k) 0 := by
    intro k hk
    rw [hQc₁ j' k hj' hk, if_neg (fun e => hjj' e.symm)]
  have hdot : colDot n Q₁ i j' = colDot n Qv i j' := colDot_congr n Qv Q₁ i j' keepI keepJ'
  refine ⟨Q₂, R₂, by rw [hrun₁]; exact hrun₂, hQ₂, hR₂, ?_, ?_⟩
  · intro c k hc hk
    rw [hQc₂ c k hc hk]
    by_cases hcj' : c = j'
    · subst hcj'
      rw [if_pos rfl, if_neg (fun e => hjj' e.symm), if_pos rfl, hdot, keepJ' k hk, keepI k hk]
    · rw [if_neg hcj', hQc₁ c k hc hk]
      by_cases hcj : c = j
      · rw [if_pos hcj, if_pos hcj]
      · rw [if_neg hcj, if_neg hcj, if_neg hcj']
  · intro c m hc hm
    rw [hRc₂ c m hc hm]
    by_cases hcj' : c = j' ∧ m = i
    · obtain ⟨rfl, rfl⟩ := hcj'
      rw [if_pos ⟨rfl, rfl⟩, if_neg (fun e => hjj' e.1.symm), if_pos ⟨rfl, rfl⟩, hdot,
        hRc₁ c m hc hm, if_neg (fun e => hjj' e.1.symm)]
    · rw [if_neg hcj', hRc₁ c m hc hm]
      by_cases hcj : c = j ∧ m = i
      · rw [if_pos hcj, if_pos hcj]
      · rw [if_neg hcj, if_neg hcj, if_neg hcj']

/-- The inner-loop bodies for two trailing columns commute. -/
theorem updateColumn_comm (n i j j' : Nat) (s : List α × List α) (hij : i < j) (hj : j < n)
    (hij' : i < j') (hj' : j' < n) (hQ : s.1.length = n * n) (hR : s.2.length = n * n) :
    (updateColumn n i j s >>= updateColumn n i j')
      = (updateColumn n i j' s >>= updateColumn n i j) := by
  obtain ⟨Qv, Rv⟩ := s
  by_cases hjj' : j = j'
  · subst hjj'; rfl
  have hi : i < n := by omega
  obtain ⟨Q₂, R₂, hrun, hQ₂, hR₂, hQc, hRc⟩ := updateColumn_twice n i j j' Qv Rv hi hj hj'
    (by omega) (by omega) hjj' hQ hR
  obtain ⟨Q₃, R₃, hrun', hQ₃, hR₃, hQc', hRc'⟩ := updateColumn_twice n i j' j Qv Rv hi hj' hj
    (by omega) (by omega) (fun e => hjj' e.symm) hQ hR
  have eQ : Q₂ = Q₃ := by
    apply buffer_ext hQ₂ hQ₃
    intro c k hc hk
    rw [hQc c k hc hk, hQc' c k hc hk]
    by_cases h1 : c = j
    · subst h1
      rw [if_pos rfl, if_neg hjj', if_pos rfl]
    · rw [if_neg h1]
      by_cases h2 : c = j'
      · rw [if_pos h2, if_pos h2]
      · rw [if_neg h2, if_neg h2, if_neg h1]
  have eR : R₂ = R₃ := by
    apply buffer_ext hR₂ hR₃
    intro c m hc hm
    rw [hRc c m hc hm, hRc' c m hc hm]
    by_cases h1 : c = j ∧ m = i
    · obtain ⟨rfl, rfl⟩ := h1
      rw [if_pos ⟨rfl, rfl⟩, if_neg (fun e => hjj' e.1), if_pos ⟨rfl, rfl⟩]
    · rw [if_neg h1]
      by_cases h2 : c = j' ∧ m = i
      · rw [if_pos h2, if_pos h2]
      · rw [if_neg h2, if_neg h2, if_neg h1]
  rw [hrun, hrun', eQ, eR]

/-- Executing the inner-loop bodies along two lists that are permutations of each other
gives the same buffers. -/
theorem updateColumnsInOrder_perm (n i : Nat) (l₁ l₂ : List Nat) (hperm : l₁.Perm l₂) :
    (∀ j, j ∈ l₁ → i < j ∧ j < n) →
    ∀ s : List α × List α, s.1.length = n * n → s.2.length = n * n →
      updateColumnsInOrder n i l₁ s = updateColumnsInOrder n i l₂ s := by
  induction hperm with
  | nil => intro _ s _ _; rfl
  | cons x hp ih =>
    rename_i l₁ l₂
    intro hmem s hQ hR
    obtain ⟨hix, hxn⟩ := hmem x (List.mem_cons_self x l₁)
    obtain ⟨Q₁, R₁, hrun, hQ₁, hR₁, _, _⟩ :=
      updateColumn_ok n i x s.1 s.2 (by omega) hxn (by omega) hQ hR
    unfold updateColumnsInOrder
    rw [List.foldlM_cons, List.foldlM_cons]
    show (updateColumn n i x (s.1, s.2) >>= _) = (updateColumn n i x (s.1, s.2) >>= _)
    rw [hrun]
    exact ih (fun j hj => hmem j (List.mem_cons_of_mem x hj)) (Q₁, R₁) hQ₁ hR₁
  | swap x y l =>
    intro hmem s hQ hR
    obtain ⟨hiy, hyn⟩ := hmem y (List.mem_cons_self y (x :: l))
    obtain ⟨hix, hxn⟩ := hmem x (List.mem_cons_of_mem y (List.mem_cons_self x l))
    unfold updateColumnsInOrder
    simp only [List.foldlM_cons]
    rw [← bind_assoc, ← bind_assoc, updateColumn_comm n i y x s hiy hyn hix hxn hQ hR]
  | trans hp₁ hp₂ ih₁ ih₂ =>
    intro hmem s hQ hR
    rw [ih₁ hmem s hQ hR]
    exact ih₂ (fun j hj => hmem j (hp₁.mem_iff.mpr hj)) s hQ hR

end Order

/-- A counted loop is the fold of its body over the list of its indices. -/
theorem loop_eq_foldlM {σ : Type} (body : Nat → σ → Except Fault σ) :
    ∀ (count i : Nat) (s : σ),
      loop body count i s = (List.range' i count).foldlM (fun t j => body j t) s := by
  intro count
  induction count with
  | zero => intro i s; rfl
  | succ c ih =>
    intro i s
    rw [List.range'_succ, List.foldlM_cons]
    show (body i s >>= loop body c (i + 1)) = _
    congr 1
    funext t
    exact ih (i + 1) t
/-! ## The division guard -/

theorem forLoop_first {σ : Type} (lo hi : Nat) (h : lo < hi)
    (body : Nat → σ → Except Fault σ) (s : σ) :
    forLoop lo hi body s = body lo s >>= forLoop (lo + 1) hi body := by
  have e : hi - lo = (hi - (lo + 1)) + 1 := by omega
  simp only [forLoop]
  rw [e]
  rfl

/-- A loop in which a step either keeps the invariant or stops with the fault `e` either
runs to completion or stops with `e` at a first bad step that is reached by a prefix of
the loop. -/
theorem forLoop_inv_stop {σ : Type} (Inv Bad : Nat → σ → Prop) (e : Fault) (lo : Nat)
    (body : Nat → σ → Except Fault σ) (s : σ) (h0 : Inv lo s) :
    ∀ count : Nat,
      (∀ k t, lo ≤ k → k < lo + count → Inv k t →
        (∃ t', body k t = .ok t' ∧ Inv (k + 1) t') ∨ (Bad k t ∧ body k t = .error e)) →
      (∃ s', forLoop lo (lo + count) body s = .ok s' ∧ Inv (lo + count) s') ∨
      (∃ k t, lo ≤ k ∧ k < lo + count ∧ forLoop lo k body s = .ok t ∧ Inv k t ∧ Bad k t ∧
        forLoop lo (lo + count) body s = .error e) := by
  intro count
  induction count with
  | zero =>
    intro _
    left
    refine ⟨s, ?_, h0⟩
    unfold forLoop
    rw [Nat.add_zero, Nat.sub_self]
    rfl
  | succ c ih =>
    intro hstep
    have hsplit : forLoop lo (lo + (c + 1)) body s
        = forLoop lo (lo + c) body s >>= body (lo + c) := by
      unfold forLoop
      have e1 : lo + (c + 1) - lo = c + 1 := by omega
      have e2 : lo + c - lo = c := by omega
      rw [e1, e2, loop_add body c 1 lo s]
      congr 1
      funext t
      show (body (lo + c) t >>= fun u => Except.ok u) = body (lo + c) t
      cases body (lo + c) t <;> rfl
    rcases ih (fun k t hk hk' ht => hstep k t hk (by omega) ht) with
      ⟨t, hrun, hInv⟩ | ⟨k, t, hk, hk', hrun, hInv, hbad, herr⟩
    · rcases hstep (lo + c) t (by omega) (by omega) hInv with ⟨t', ht', hInv'⟩ | ⟨hbad, herr⟩
      · left
        refine ⟨t', ?_, hInv'⟩
        rw [hsplit, hrun]
        exact ht'
      · right
        refine ⟨lo + c, t, by omega, by omega, hrun, hInv, hbad, ?_⟩
        rw [hsplit, hrun]
        exact herr
    · right
      refine ⟨k, t, hk, by omega, hrun, hInv, hbad, ?_⟩
      rw [hsplit, herr]
      rfl

/-- With a zero divisor the normalisation loop stops at its first division. -/
theorem normalizeColumn_zero {α : Type} [Field α] [DecidableEq α] (n i : Nat) (Qv : List α)
    (hi : i < n) (hlen : Qv.length = n * n) :
    normalizeColumn n i 0 Qv = .error .divByZero := by
  unfold normalizeColumn
  rw [forLoop_first 0 n (by omega)]
  have hin : i * n + 0 < Qv.length := by rw [hlen]; exact cell_lt hi (by omega)
  show ((rd Qv (i * n + 0) >>= fun x => divide x 0 >>= fun y => wr Qv (i * n + 0) y) >>= _) = _
  rw [rd_ok Qv _ hin]
  simp [divide, bind, Except.bind]

/-- A step whose norm is zero stops with a division by zero. -/
theorem gramSchmidtStep_zero {α : Type} [Field α] [DecidableEq α] (sqrt : α → α) (n i : Nat)
    (s : List α × List α) (hi : i < n) (hQ : s.1.length = n * n)
    (hzero : sqrt (colDot n s.1 i i) = 0) :
    gramSchmidtStep sqrt n i s = .error .divByZero := by
  unfold gramSchmidtStep
  rw [sumSquares_ok n i s.1 hi hQ]
  show (normalizeColumn n i (sqrt (colDot n s.1 i i)) s.1 >>= _) = _
  rw [hzero, normalizeColumn_zero n i s.1 hi hQ]
  rfl

/-- A step whose column has a positive sum of squares returns and keeps the invariant. -/
theorem guardInv_step (n : Nat) (Av : List ℝ) (i : Nat) (s : List ℝ × List ℝ) (hi : i < n)
    (h : GuardInv n Av i s) (hpos : 0 < colDot n s.1 i i) :
    ∃ s', gramSchmidtStep Real.sqrt n i s = .ok s' ∧ GuardInv n Av (i + 1) s' := by
  obtain ⟨s1, hrun, h1, hR1⟩ := colInv_init_pos n Av i s hi h.step hpos
  obtain ⟨s2, hloop, h2⟩ := forLoop_inv (fun j t => ColInv n Av i j t) (i + 1) n (by omega)
    (updateColumn n i) s1 h1
    (fun j t hj hjn ht => colInv_step n Av i j t (by omega) hjn ht)
  have hdiag : ∀ a, a < n → s2.2.getD (a * n + a) 0 = s1.2.getD (a * n + a) 0 :=
    forLoop_preserves_range
      (fun t : List ℝ × List ℝ => ∀ a, a < n → t.2.getD (a * n + a) 0 = s1.2.getD (a * n + a) 0)
      (i + 1) n (updateColumn n i)
      (fun j t t' hlo hhi ht hb a ha => by
        rw [(updateColumn_frame n i j t t' hb).2 (a * n + a)
          (fun e => by
            obtain ⟨e1, e2⟩ := cell_inj ha hi e
            omega), ht a ha])
      s1 s2 (fun _ _ => rfl) hloop
  refine ⟨s2, by rw [hrun, hloop], stepInv_of_colInv n Av i s2 hi h2, ?_⟩
  intro a ha
  rw [hdiag a (by omega), hR1 a a (by omega) (by omega)]
  by_cases hai : a = i
  · subst hai
    rw [if_pos ⟨rfl, rfl⟩, h.step.ident a a hi hi (Nat.le_refl a), if_pos rfl, one_mul]
    exact Real.sqrt_pos.mpr hpos
  · rw [if_neg (fun e => hai e.1)]
    exact h.diag a (by omega)

/-- Once every step has run with a positive norm, the input is nonsingular. -/
theorem guardInv_det (n : Nat) (Av : List ℝ) (s : List ℝ × List ℝ) (h : GuardInv n Av n s) :
    (colMajor n Av).det ≠ 0 := by
  obtain ⟨Qv, Rv⟩ := s
  have hQ : (colMajor n Qv).transpose * colMajor n Qv = 1 := by
    ext a b
    simp only [Matrix.mul_apply, Matrix.transpose_apply, colMajor, Matrix.of_apply,
      Matrix.one_apply]
    have e : (∑ r : Fin n, Qv.getD (a.val * n + r.val) 0 * Qv.getD (b.val * n + r.val) 0)
        = colDot n Qv a.val b.val := by
      unfold colDot
      rw [Finset.sum_range]
    rw [e]
    by_cases hab : a = b
    · subst hab
      rw [if_pos rfl]
      exact h.step.unit a.val a.isLt
    · rw [if_neg hab]
      exact h.step.orth a.val b.val a.isLt b.isLt (fun e => hab (Fin.ext e))
  have hdetQ : (colMajor n Qv).det ≠ 0 := by
    intro hz
    have := congrArg Matrix.det hQ
    rw [Matrix.det_mul, Matrix.det_transpose, hz, Matrix.det_one, mul_zero] at this
    exact zero_ne_one this
  have htri : (colMajor n Rv).BlockTriangular id := by
    intro r c hcr
    show Rv.getD (c.val * n + r.val) 0 = 0
    exact h.step.lower c.val r.val c.isLt r.isLt hcr
  have hdetR : (colMajor n Rv).det ≠ 0 := by
    rw [Matrix.det_of_upperTriangular htri]
    apply Finset.prod_ne_zero_iff.mpr
    intro r _
    exact (h.diag r.val r.isLt).ne'
  rw [(recon_iff_matrix n Av Qv Rv).mp h.step.recon, Matrix.det_mul, rowMajor_eq_transpose,
    Matrix.transpose_transpose]
  exact mul_ne_zero hdetQ hdetR
theorem colDot_self_nonneg (n : Nat) (Qv : List ℝ) (i : Nat) : 0 ≤ colDot n Qv i i :=
  Finset.sum_nonneg (fun _ _ => mul_self_nonneg _)

/-- The main loop either completes with positive norms throughout, or reaches a first step
whose column is zero and stops there with a division by zero. -/
theorem mainLoop_cases (n : Nat) (Av Iv : List ℝ) (hA : Av.length = n * n)
    (hI : Iv.length = n * n)
    (hcells : ∀ j k, j < n → k < n → Iv.getD (j * n + k) 0 = if j = k then 1 else 0) :
    (∃ s', forLoop 0 n (gramSchmidtStep Real.sqrt n) (Av, Iv) = .ok s' ∧ GuardInv n Av n s') ∨
    (∃ k t, k < n ∧ forLoop 0 k (gramSchmidtStep Real.sqrt n) (Av, Iv) = .ok t ∧
      GuardInv n Av k t ∧ colDot n t.1 k k = 0 ∧
      forLoop 0 n (gramSchmidtStep Real.sqrt n) (Av, Iv) = .error .divByZero) := by
  have h := forLoop_inv_stop (fun i t => GuardInv n Av i t)
    (fun i (t : List ℝ × List ℝ) => colDot n t.1 i i = 0) Fault.divByZero 0
    (gramSchmidtStep Real.sqrt n) (Av, Iv)
    ⟨stepInv_zero n Av Iv hA hI hcells, fun a ha => absurd ha (Nat.not_lt_zero a)⟩ n
    (by
      intro k t _ hk ht
      rw [Nat.zero_add] at hk
      rcases (colDot_self_nonneg n t.1 k).lt_or_eq with hpos | hzero
      · exact Or.inl (guardInv_step n Av k t hk ht hpos)
      · refine Or.inr ⟨hzero.symm, ?_⟩
        apply gramSchmidtStep_zero Real.sqrt n k t hk ht.step.lenQ
        rw [← hzero, Real.sqrt_zero])
  rw [Nat.zero_add] at h
  rcases h with h | ⟨k, t, _, hk, hrun, hInv, hbad, herr⟩
  · exact Or.inl h
  · exact Or.inr ⟨k, t, hk, hrun, hInv, hbad, herr⟩

/-- On a nonsingular input every state the main loop reaches satisfies its invariant. -/
theorem reached_stepInv (n : Nat) (Av Iv : List ℝ) (hA : Av.length = n * n)
    (hI : Iv.length = n * n)
    (hcells : ∀ j k, j < n → k < n → Iv.getD (j * n + k) 0 = if j = k then 1 else 0)
    (hdet : (colMajor n Av).det ≠ 0) (i : Nat) (hi : i ≤ n) (s : List ℝ × List ℝ)
    (hrun : forLoop 0 i (gramSchmidtStep Real.sqrt n) (Av, Iv) = .ok s) : StepInv n Av i s := by
  obtain ⟨s', hs', hInv⟩ := forLoop_inv (fun k t => StepInv n Av k t) 0 i (Nat.zero_le i)
    (gramSchmidtStep Real.sqrt n) (Av, Iv) (stepInv_zero n Av Iv hA hI hcells)
    (fun k t _ hk ht => stepInv_step n Av k t hdet (by omega) ht)
  rw [hs'] at hrun
  have e : s' = s := by injection hrun
  rw [← e]
  exact hInv

/-! ## Further concrete runs -/

/-- The second step of the run on the matrix `[[3, 4], [4, 6]]`. -/
theorem step_run_sym346 :
    gramSchmidtStep Real.sqrt 2 1
        (([3 / 5, 4 / 5, -(8 / 25), 6 / 25] : List ℝ), ([5, 0, 36 / 5, 1] : List ℝ))
      = .ok ([3 / 5, 4 / 5, -(4 / 5), 3 / 5], [5, 0, 36 / 5, 2 / 5]) := by
  norm_num [gramSchmidtStep, updateColumn, sumSquares, normalizeColumn, dotColumns,
    subtractProjection, forLoop, loop, rd, wr, divide, bind, Except.bind, pure, Except.pure,
    sqrt_twentyfive, sqrt_four]

/-- The run of `qr_decomposition` on the matrix with the dependent columns `(3, 4)` and
`(6, 8)`: the second norm is zero. -/
theorem qr_run_dependent :
    qr_decomposition Real.sqrt ⟨2, [3, 4, 6, 8]⟩ (Matrix.init 2 0) (Matrix.init 2 0)
      = .error .divByZero := by
  norm_num [qr_decomposition, zeroFill, unitDiagonal, gramSchmidtStep, updateColumn,
    sumSquares, normalizeColumn, dotColumns, subtractProjection, forLoop, loop, rd, wr,
    divide, Matrix.init, bind, Except.bind, pure, Except.pure, List.replicate,
    sqrt_twentyfive]

/-! ## The claims -/

/-- C1 (defect in the code). On the `2 × 2` matrix with the linearly independent columns
`(1, 0)` and `(1, 1)` the routine returns `Q = [1, 0, 0, 1]` and `R = [1, 0, 1, 1]`. With
`R` read row-major, as its parameter comment says, `Q * R` is not `A`; `A` is `Q * Rᵀ`. -/
theorem qr_reconstruction_row_major_defect :
    ColumnsIndependent 2 [1, 0, 1, 1] ∧
    qr_decomposition Real.sqrt ⟨2, [1, 0, 1, 1]⟩ (Matrix.init 2 0) (Matrix.init 2 0)
      = .ok (⟨2, [1, 0, 0, 1]⟩, ⟨2, [1, 0, 1, 1]⟩) ∧
    colMajor 2 ([1, 0, 0, 1] : List ℝ) * rowMajor 2 [1, 0, 1, 1] ≠ colMajor 2 [1, 0, 1, 1] ∧
    colMajor 2 ([1, 0, 0, 1] : List ℝ) * (rowMajor 2 [1, 0, 1, 1]).transpose
      = colMajor 2 [1, 0, 1, 1] := by
  refine ⟨independent_shear, qr_run_shear, ?_, ?_⟩
  · intro h
    have := congrFun (congrFun h 0) 1
    simp [colMajor, rowMajor, Matrix.mul_apply, Fin.sum_univ_two] at this
  · ext r c
    fin_cases r <;> fin_cases c <;>
      simp [colMajor, rowMajor, Matrix.mul_apply, Fin.sum_univ_two]

/-- C2. On an `n × n` real matrix with linearly independent columns `qr_decomposition`
returns, and the columns of the `Q` it produces are pairwise orthogonal and have Euclidean
norm 1. -/
theorem qr_columns_orthonormal (n : Nat) (A Q R : Matrix ℝ) (hA : A.Sized n) (hQ : Q.Sized n)
    (hR : R.Sized n) (hind : ColumnsIndependent n A.v) :
    ∃ Q' R', qr_decomposition Real.sqrt A Q R = .ok (Q', R') ∧ Q'.Sized n ∧
      (∀ i j, i < n → j < n → i ≠ j → colDot n Q'.v i j = 0) ∧
      (∀ i, i < n → Real.sqrt (colDot n Q'.v i i) = 1) := by
  obtain ⟨Qv, Rv, hrun, hInv⟩ := qr_decomposition_spec n A Q R hA.1 hA.2 hQ.1 hR.2
    ((columnsIndependent_iff_det n A.v).mp hind)
  refine ⟨⟨n, Qv⟩, ⟨R.n, Rv⟩, hrun, ⟨rfl, hInv.lenQ⟩, ?_, ?_⟩
  · intro i j hi hj hij
    exact hInv.orth i j hi hj hij
  · intro i hi
    have h1 : colDot n Qv i i = 1 := hInv.unit i hi
    show Real.sqrt (colDot n Qv i i) = 1
    rw [h1, Real.sqrt_one]

/-- Witness of C2 on the matrix with columns `(1, 0)` and `(1, 1)`. -/
theorem qr_columns_orthonormal_witness :
    (Matrix.Sized 2 (⟨2, [1, 0, 1, 1]⟩ : Matrix ℝ) ∧ Matrix.Sized 2 (Matrix.init 2 (0 : ℝ))
      ∧ ColumnsIndependent 2 [1, 0, 1, 1]) ∧
    ∃ Q' R', qr_decomposition Real.sqrt ⟨2, [1, 0, 1, 1]⟩ (Matrix.init 2 0) (Matrix.init 2 0)
        = .ok (Q', R') ∧ Q'.Sized 2 ∧
      (∀ i j, i < 2 → j < 2 → i ≠ j → colDot 2 Q'.v i j = 0) ∧
      (∀ i, i < 2 → Real.sqrt (colDot 2 Q'.v i i) = 1) :=
  ⟨⟨⟨rfl, rfl⟩, ⟨rfl, rfl⟩, independent_shear⟩,
    qr_columns_orthonormal 2 ⟨2, [1, 0, 1, 1]⟩ (Matrix.init 2 0) (Matrix.init 2 0)
      ⟨rfl, rfl⟩ ⟨rfl, rfl⟩ ⟨rfl, rfl⟩ independent_shear⟩

/-- C3 (defect in the code). On the matrix with columns `(1, 0)` and `(1, 1)` the buffer of
`R` read row-major has the nonzero entry `R.v[1*2+0] = 1` strictly below the diagonal, and
the zero entry `R.v[0*2+1]` above it: the buffer holds a lower-triangular matrix. -/
theorem qr_r_row_major_not_upper_defect :
    qr_decomposition Real.sqrt ⟨2, [1, 0, 1, 1]⟩ (Matrix.init 2 0) (Matrix.init 2 0)
      = .ok (⟨2, [1, 0, 0, 1]⟩, ⟨2, [1, 0, 1, 1]⟩) ∧
    ([1, 0, 1, 1] : List ℝ).getD (1 * 2 + 0) 0 = 1 ∧
    ([1, 0, 1, 1] : List ℝ).getD (0 * 2 + 1) 0 = 0 ∧
    rowMajor 2 ([1, 0, 1, 1] : List ℝ) 1 0 ≠ 0 := by
  refine ⟨qr_run_shear, ?_, ?_, ?_⟩ <;> simp [rowMajor]

/-- C4. `multiply(A, B, C)` on `n × n` matrices returns, and stores in `C.v[j*n+i]` the sum
over `k < n` of `A.v[i*n+k] * B.v[j*n+k]`; with `A` read row-major and `B`, `C` read
column-major, `C` is the matrix product `A * B`. -/
theorem multiply_naive_product {α : Type} [Field α] [DecidableEq α] (n : Nat)
    (A B C : Matrix α) (hA : A.Sized n) (hB : B.Sized n) (hC : C.Sized n) :
    ∃ C', multiply A B C = .ok C' ∧ C'.Sized n ∧
      (∀ i j, i < n → j < n →
        C'.v.getD (j * n + i) 0
          = ∑ k in Finset.range n, A.v.getD (i * n + k) 0 * B.v.getD (j * n + k) 0) ∧
      colMajor n C'.v = rowMajor n A.v * colMajor n B.v := by
  obtain ⟨Cv, hrun, hlen, hcells⟩ := multiply_ok n A B C hA.1 hB.1 hC.1 hA.2 hB.2 hC.2
  exact ⟨⟨n, Cv⟩, hrun, ⟨rfl, hlen⟩, hcells, multiply_matrix n A.v B.v Cv hcells⟩

/-- Witness of C4 on two `2 × 2` matrices. -/
theorem multiply_naive_product_witness :
    (Matrix.Sized 2 (⟨2, [1, 2, 3, 4]⟩ : Matrix ℝ) ∧ Matrix.Sized 2 (⟨2, [5, 6, 7, 8]⟩ : Matrix ℝ)
      ∧ Matrix.Sized 2 (Matrix.init 2 (0 : ℝ))) ∧
    ∃ C', multiply (⟨2, [1, 2, 3, 4]⟩ : Matrix ℝ) ⟨2, [5, 6, 7, 8]⟩ (Matrix.init 2 0) = .ok C' ∧
      C'.Sized 2 ∧
      (∀ i j, i < 2 → j < 2 →
        C'.v.getD (j * 2 + i) 0
          = ∑ k in Finset.range 2,
              ([1, 2, 3, 4] : List ℝ).getD (i * 2 + k) 0 * ([5, 6, 7, 8] : List ℝ).getD (j * 2 + k) 0) ∧
      colMajor 2 C'.v = rowMajor 2 [1, 2, 3, 4] * colMajor 2 [5, 6, 7, 8] :=
  ⟨⟨⟨rfl, rfl⟩, ⟨rfl, rfl⟩, ⟨rfl, rfl⟩⟩,
    multiply_naive_product 2 ⟨2, [1, 2, 3, 4]⟩ ⟨2, [5, 6, 7, 8]⟩ (Matrix.init 2 0)
      ⟨rfl, rfl⟩ ⟨rfl, rfl⟩ ⟨rfl, rfl⟩⟩

/-- C5 (defect in the code). One driver round on the matrix `A = [[3, 4], [4, 6]]`, whose
columns are linearly independent, returns `Q = [3/5, 4/5, -4/5, 3/5]` and leaves
`[3, 116/25, -4, -138/25]` as the next iterate. Read column-major, this is not
`Qᵀ * A * Q`, and it is not similar to `A` through any invertible matrix. -/
theorem round_not_similarity_defect :
    ColumnsIndependent 2 [3, 4, 4, 6] ∧
    (round Real.sqrt
        ⟨⟨2, [3, 4, 4, 6]⟩, Matrix.init 2 0, Matrix.init 2 0, Matrix.init 2 0⟩).map
      (fun s => (s.A, s.Q))
      = .ok (⟨2, [3, 116 / 25, -4, -(138 / 25)]⟩, ⟨2, [3 / 5, 4 / 5, -(4 / 5), 3 / 5]⟩) ∧
    colMajor 2 ([3, 116 / 25, -4, -(138 / 25)] : List ℝ)
      ≠ (colMajor 2 [3 / 5, 4 / 5, -(4 / 5), 3 / 5]).transpose * colMajor 2 [3, 4, 4, 6]
          * colMajor 2 [3 / 5, 4 / 5, -(4 / 5), 3 / 5] ∧
    (∀ P : SqMat 2 ℝ, IsUnit P.det →
      colMajor 2 ([3, 116 / 25, -4, -(138 / 25)] : List ℝ) ≠ P⁻¹ * colMajor 2 [3, 4, 4, 6] * P) := by
  refine ⟨independent_sym346, by rw [round_run_sym346]; rfl, ?_, ?_⟩
  · intro h
    have := congrFun (congrFun h 0) 0
    simp [colMajor, Matrix.mul_apply, Fin.sum_univ_two] at this
    norm_num at this
  · intro P hP h
    have ht := congrArg Matrix.trace h
    rw [Matrix.trace_mul_comm, ← mul_assoc, Matrix.mul_nonsing_inv P hP, one_mul] at ht
    simp [Matrix.trace, Fin.sum_univ_two, colMajor] at ht
    norm_num at ht

/-- C6 (defect in the code). The matrix `[[3, 4], [4, 3]]` is symmetric and nonsingular, and
its eigenvalues are exactly `7` and `-1`; yet every iterate of the driver is the matrix
itself, so both diagonal entries stay at `3`, at distance `4` from either eigenvalue, and
the diagonal of the iterates does not converge to the eigenvalues. -/
theorem driver_no_convergence_defect :
    (colMajor 2 ([3, 4, 4, 3] : List ℝ)).transpose = colMajor 2 [3, 4, 4, 3] ∧
    (colMajor 2 ([3, 4, 4, 3] : List ℝ)).det ≠ 0 ∧
    (∀ μ : ℝ, Module.End.HasEigenvalue (Matrix.toLin' (colMajor 2 ([3, 4, 4, 3] : List ℝ))) μ
      ↔ μ = 7 ∨ μ = -1) ∧
    (∀ k, (driver Real.sqrt k
        ⟨⟨2, [3, 4, 4, 3]⟩, Matrix.init 2 0, Matrix.init 2 0, Matrix.init 2 0⟩).map
      (fun s => s.A) = .ok ⟨2, [3, 4, 4, 3]⟩) ∧
    ¬ (∀ ε : ℝ, 0 < ε → ∃ K : Nat, ∀ k, K ≤ k → ∀ s',
        driver Real.sqrt k
          ⟨⟨2, [3, 4, 4, 3]⟩, Matrix.init 2 0, Matrix.init 2 0, Matrix.init 2 0⟩ = .ok s' →
        ∀ i, i < 2 → ∃ μ : ℝ,
          Module.End.HasEigenvalue (Matrix.toLin' (colMajor 2 ([3, 4, 4, 3] : List ℝ))) μ ∧
          |s'.A.v.getD (i * 2 + i) 0 - μ| < ε) := by
  have hiter : ∀ k, (driver Real.sqrt k
      ⟨⟨2, [3, 4, 4, 3]⟩, Matrix.init 2 0, Matrix.init 2 0, Matrix.init 2 0⟩).map
        (fun s => s.A) = .ok ⟨2, [3, 4, 4, 3]⟩ := by
    intro k
    cases k with
    | zero => rfl
    | succ k =>
      have h : driver Real.sqrt (k + 1)
          ⟨⟨2, [3, 4, 4, 3]⟩, Matrix.init 2 0, Matrix.init 2 0, Matrix.init 2 0⟩
            = .ok ⟨⟨2, [3, 4, 4, 3]⟩, ⟨2, [3, 4, 4, 3]⟩,
                ⟨2, [3 / 5, 4 / 5, 4 / 5, -(3 / 5)]⟩, ⟨2, [5, 0, 24 / 5, 7 / 5]⟩⟩ := by
        show (round Real.sqrt _ >>= loop (fun _ s => round Real.sqrt s) k 1) = _
        rw [round_run_sym343]
        exact loop_fixed (round Real.sqrt) _ round_fixed_sym343 k 1
      rw [h]
      rfl
  refine ⟨?_, ?_, eigenvalues_sym343, hiter, ?_⟩
  · ext r c
    fin_cases r <;> fin_cases c <;> simp [colMajor]
  · rw [Matrix.det_fin_two]
    simp [colMajor]
    norm_num
  · intro hconv
    obtain ⟨K, hK⟩ := hconv 1 one_pos
    have hrun := hiter K
    cases hd : driver Real.sqrt K
        ⟨⟨2, [3, 4, 4, 3]⟩, Matrix.init 2 0, Matrix.init 2 0, Matrix.init 2 0⟩ with
    | error e =>
      rw [hd] at hrun
      exact absurd hrun (by simp [Except.map])
    | ok s' =>
      rw [hd] at hrun
      have hA : s'.A = ⟨2, [3, 4, 4, 3]⟩ := by
        have h' : (Except.ok s'.A : Except Fault (Matrix ℝ)) = .ok ⟨2, [3, 4, 4, 3]⟩ := hrun
        injection h'
      obtain ⟨μ, hμ, hclose⟩ := hK K (Nat.le_refl K) s' hd 0 (by norm_num)
      rw [hA] at hclose
      have h3 : ([3, 4, 4, 3] : List ℝ).getD (0 * 2 + 0) 0 = 3 := by simp
      simp only [h3] at hclose
      rcases (eigenvalues_sym343 μ).mp hμ with rfl | rfl
      · norm_num [abs_lt] at hclose
      · norm_num [abs_lt] at hclose

/-- C7 (defect in the code). The matrix `[[3, 4], [4, 6]]` is symmetric and nonsingular with
trace `9`; after one driver round the iterate is `[3, 116/25, -4, -138/25]`, whose trace is
`-63/25`. -/
theorem driver_trace_defect :
    (colMajor 2 ([3, 4, 4, 6] : List ℝ)).transpose = colMajor 2 [3, 4, 4, 6] ∧
    (colMajor 2 ([3, 4, 4, 6] : List ℝ)).det ≠ 0 ∧
    (driver Real.sqrt 1
        ⟨⟨2, [3, 4, 4, 6]⟩, Matrix.init 2 0, Matrix.init 2 0, Matrix.init 2 0⟩).map
      (fun s => s.A) = .ok ⟨2, [3, 116 / 25, -4, -(138 / 25)]⟩ ∧
    (colMajor 2 ([3, 4, 4, 6] : List ℝ)).trace = 9 ∧
    (colMajor 2 ([3, 116 / 25, -4, -(138 / 25)] : List ℝ)).trace = -(63 / 25) := by
  refine ⟨?_, ?_, ?_, ?_, ?_⟩
  · ext r c
    fin_cases r <;> fin_cases c <;> simp [colMajor]
  · rw [Matrix.det_fin_two]
    simp [colMajor]
    norm_num
  · show (round Real.sqrt _ >>= loop (fun _ s => round Real.sqrt s) 0 1).map _ = _
    rw [round_run_sym346]
    rfl
  · simp [Matrix.trace, Fin.sum_univ_two, colMajor]
    norm_num
  · simp [Matrix.trace, Fin.sum_univ_two, colMajor]
    norm_num

/-- C8. For a nonsingular `n × n` real matrix and every round count `k`, the driver
returns and the determinant of its `k`-th iterate is the determinant of the input. -/
theorem driver_det_invariant (n k : Nat) (s : Buffers ℝ) (hs : s.Sized n)
    (hdet : (colMajor n s.A.v).det ≠ 0) :
    ∃ s', driver Real.sqrt k s = .ok s' ∧
      (colMajor n s'.A.v).det = (colMajor n s.A.v).det := by
  obtain ⟨s', hrun, _, h⟩ := forLoop_inv
    (fun _ (t : Buffers ℝ) => t.Sized n ∧ (colMajor n t.A.v).det = (colMajor n s.A.v).det)
    0 k (Nat.zero_le k) (fun _ t => round Real.sqrt t) s ⟨hs, rfl⟩
    (by
      intro _ t _ _ ⟨ht, hd⟩
      obtain ⟨t', hrun, hsized, hQR, hRQ⟩ := round_spec n t ht (by rw [hd]; exact hdet)
      refine ⟨t', hrun, hsized, ?_⟩
      rw [← hd, hRQ, hQR, Matrix.det_mul, Matrix.det_mul, Matrix.det_transpose, mul_comm])
  exact ⟨s', hrun, h⟩

/-- Witness of C8: two rounds on the symmetric matrix `[[3, 4], [4, 6]]`. -/
theorem driver_det_invariant_witness :
    (Buffers.Sized 2
        (⟨⟨2, [3, 4, 4, 6]⟩, Matrix.init 2 0, Matrix.init 2 0, Matrix.init 2 0⟩ : Buffers ℝ) ∧
      (colMajor 2 ([3, 4, 4, 6] : List ℝ)).det ≠ 0) ∧
    ∃ s', driver Real.sqrt 2
        ⟨⟨2, [3, 4, 4, 6]⟩, Matrix.init 2 0, Matrix.init 2 0, Matrix.init 2 0⟩ = .ok s' ∧
      (colMajor 2 s'.A.v).det = (colMajor 2 ([3, 4, 4, 6] : List ℝ)).det :=
  have hdet : (colMajor 2 ([3, 4, 4, 6] : List ℝ)).det ≠ 0 := by
    rw [Matrix.det_fin_two]
    simp [colMajor]
    norm_num
  have hs : Buffers.Sized 2
      (⟨⟨2, [3, 4, 4, 6]⟩, Matrix.init 2 0, Matrix.init 2 0, Matrix.init 2 0⟩ : Buffers ℝ) :=
    ⟨⟨rfl, rfl⟩, ⟨rfl, rfl⟩, ⟨rfl, rfl⟩, ⟨rfl, rfl⟩⟩
  ⟨⟨hs, hdet⟩, driver_det_invariant 2 2 _ hs hdet⟩

/-- C9. Running the driver for `j` rounds and then for `k` more rounds on the resulting
iterate ends with the same iterate as running `j + k` rounds, whatever sized scratch
buffers `A_next`, `Q`, `R` either run starts with (a fault in one run is the same fault in
the other). -/
theorem driver_sequential_composition {α : Type} [Field α] [DecidableEq α] (sqrt : α → α)
    (n j k : Nat) (s t : Buffers α) (hs : s.Sized n) (ht : t.Sized n) (hA : s.A = t.A)
    (N Q R : Matrix α) (hN : N.Sized n) (hQ : Q.Sized n) (hR : R.Sized n) :
    (driver sqrt j s >>= fun s' => driver sqrt k ⟨s'.A, N, Q, R⟩).map (fun u => u.A)
      = (driver sqrt (j + k) t).map (fun u => u.A) := by
  rw [← driver_scratch sqrt n (j + k) s t hs ht hA, driver_add]
  cases hj : driver sqrt j s with
  | error e => rfl
  | ok s' =>
    have hs' : s'.Sized n := driver_sized sqrt n j s s' hs hj
    exact driver_scratch sqrt n k ⟨s'.A, N, Q, R⟩ s' ⟨hs'.1, hN, hQ, hR⟩ hs' rfl

/-- Witness of C9: one round and one more, with fresh scratch buffers in between, against
two rounds from other scratch buffers. -/
theorem driver_sequential_composition_witness :
    (Buffers.Sized 2
        (⟨⟨2, [3, 4, 4, 6]⟩, Matrix.init 2 0, Matrix.init 2 0, Matrix.init 2 0⟩ : Buffers ℝ) ∧
      Buffers.Sized 2
        (⟨⟨2, [3, 4, 4, 6]⟩, Matrix.init 2 1, Matrix.init 2 2, Matrix.init 2 3⟩ : Buffers ℝ) ∧
      Matrix.Sized 2 (Matrix.init 2 (7 : ℝ))) ∧
    (driver Real.sqrt 1 ⟨⟨2, [3, 4, 4, 6]⟩, Matrix.init 2 0, Matrix.init 2 0, Matrix.init 2 0⟩
        >>= fun s' => driver Real.sqrt 1
          ⟨s'.A, Matrix.init 2 7, Matrix.init 2 7, Matrix.init 2 7⟩).map (fun u => u.A)
      = (driver Real.sqrt (1 + 1)
          ⟨⟨2, [3, 4, 4, 6]⟩, Matrix.init 2 1, Matrix.init 2 2, Matrix.init 2 3⟩).map
          (fun u => u.A) :=
  ⟨⟨⟨⟨rfl, rfl⟩, ⟨rfl, rfl⟩, ⟨rfl, rfl⟩, ⟨rfl, rfl⟩⟩,
      ⟨⟨rfl, rfl⟩, ⟨rfl, rfl⟩, ⟨rfl, rfl⟩, ⟨rfl, rfl⟩⟩, ⟨rfl, rfl⟩⟩,
    driver_sequential_composition Real.sqrt 2 1 1
      ⟨⟨2, [3, 4, 4, 6]⟩, Matrix.init 2 0, Matrix.init 2 0, Matrix.init 2 0⟩
      ⟨⟨2, [3, 4, 4, 6]⟩, Matrix.init 2 1, Matrix.init 2 2, Matrix.init 2 3⟩
      ⟨⟨rfl, rfl⟩, ⟨rfl, rfl⟩, ⟨rfl, rfl⟩, ⟨rfl, rfl⟩⟩
      ⟨⟨rfl, rfl⟩, ⟨rfl, rfl⟩, ⟨rfl, rfl⟩, ⟨rfl, rfl⟩⟩ rfl
      (Matrix.init 2 7) (Matrix.init 2 7) (Matrix.init 2 7) ⟨rfl, rfl⟩ ⟨rfl, rfl⟩ ⟨rfl, rfl⟩⟩

/-- C10 (counterexample). For `a = -1` the routine returns `Q = [-1]` and `R = [1]`, not
`Q = [1]` and `R = [a]`. -/
theorem qr_scalar_negative_counterexample :
    qr_decomposition Real.sqrt ⟨1, [-1]⟩ (Matrix.init 1 0) (Matrix.init 1 0)
      = .ok (⟨1, [-1]⟩, ⟨1, [1]⟩) ∧
    qr_decomposition Real.sqrt ⟨1, [-1]⟩ (Matrix.init 1 0) (Matrix.init 1 0)
      ≠ .ok (⟨1, [1]⟩, ⟨1, [-1]⟩) := by
  have h : qr_decomposition Real.sqrt ⟨1, [-1]⟩ (Matrix.init 1 0) (Matrix.init 1 0)
      = .ok (⟨1, [-1]⟩, ⟨1, [1]⟩) := by
    norm_num [qr_decomposition, zeroFill, unitDiagonal, gramSchmidtStep, updateColumn,
      sumSquares, normalizeColumn, dotColumns, subtractProjection, forLoop, loop, rd, wr,
      divide, Matrix.init, bind, Except.bind, pure, Except.pure, List.replicate]
  refine ⟨h, ?_⟩
  rw [h]
  intro e
  have e1 := congrArg (fun r => r.toOption.map (fun p => p.1.v.getD 0 0)) e
  norm_num [Except.toOption] at e1

/-- C10 (amended). In exact real arithmetic, for a `1 × 1` real matrix `[a]` with `a ≠ 0`
the routine returns `Q = [a / |a|]` and `R = [|a|]`; this is `Q = [1]`, `R = [a]` when
`a > 0`. -/
theorem qr_scalar_decomposition (a : ℝ) (ha : a ≠ 0) (Q R : Matrix ℝ) (hQ : Q.Sized 1)
    (hR : R.Sized 1) :
    qr_decomposition Real.sqrt ⟨1, [a]⟩ Q R = .ok (⟨1, [a / |a|]⟩, ⟨1, [|a|]⟩) ∧
    (0 < a → qr_decomposition Real.sqrt ⟨1, [a]⟩ Q R = .ok (⟨1, [1]⟩, ⟨1, [a]⟩)) := by
  have h := qr_run_scalar a ha Q R hQ hR
  refine ⟨h, ?_⟩
  intro hpos
  rw [h, abs_of_pos hpos, div_self ha]

/-- Witness of the amended C10 at the real number `a = 2`. -/
theorem qr_scalar_decomposition_witness :
    ((2 : ℝ) ≠ 0 ∧ Matrix.Sized 1 (Matrix.init 1 (0 : ℝ))) ∧
    (qr_decomposition Real.sqrt ⟨1, [2]⟩ (Matrix.init 1 0) (Matrix.init 1 0)
        = .ok (⟨1, [2 / |(2 : ℝ)|]⟩, ⟨1, [|(2 : ℝ)|]⟩) ∧
      ((0 : ℝ) < 2 → qr_decomposition Real.sqrt ⟨1, [2]⟩ (Matrix.init 1 0) (Matrix.init 1 0)
        = .ok (⟨1, [1]⟩, ⟨1, [2]⟩))) :=
  ⟨⟨by norm_num, ⟨rfl, rfl⟩⟩,
    qr_scalar_decomposition 2 (by norm_num) (Matrix.init 1 0) (Matrix.init 1 0) ⟨rfl, rfl⟩ ⟨rfl, rfl⟩⟩

/-- C11 (defect in the code). Only `A.n == Q.n` is asserted (a mismatch there is the fault
`assertion`); the dimension of `R` is never checked. With a `2 × 2` input and a `1 × 1`
`R` the routine passes its precondition check and stops at an out-of-range subscript of
`R.v`; with a `3 × 3` `R` it returns a result and leaves `R.n = 3`. -/
theorem qr_dimension_check_defect :
    (∀ A Q R : Matrix ℝ, A.n ≠ Q.n →
      qr_decomposition Real.sqrt A Q R = .error .assertion) ∧
    qr_decomposition Real.sqrt ⟨2, [1, 0, 1, 1]⟩ (Matrix.init 2 0) (Matrix.init 1 0)
      = .error .outOfRange ∧
    qr_decomposition Real.sqrt ⟨2, [1, 0, 1, 1]⟩ (Matrix.init 2 0) (Matrix.init 3 0)
      = .ok (⟨2, [1, 0, 0, 1]⟩, ⟨3, [1, 0, 1, 1, 0, 0, 0, 0, 0]⟩) := by
  refine ⟨?_, ?_, ?_⟩
  · intro A Q R h
    simp [qr_decomposition, h, bind, Except.bind, throw, throwThe, MonadExceptOf.throw]
  · norm_num [qr_decomposition, zeroFill, unitDiagonal, forLoop, loop, wr, Matrix.init, bind,
      Except.bind, pure, Except.pure, List.replicate]
  · norm_num [qr_decomposition, zeroFill, unitDiagonal, gramSchmidtStep, updateColumn,
      sumSquares, normalizeColumn, dotColumns, subtractProjection, forLoop, loop, rd, wr,
      divide, Matrix.init, bind, Except.bind, pure, Except.pure, List.replicate]

/-- C12 (defect in the code). The file `2 2 1` with the single entry `1 2 5` is loaded as
the buffer `[0, 5, 0, 0]`: the value sits at `v[(row-1)*n + (col-1)]`. Read column-major
the matrix holds `0` at position `(0, 1)` and `5` at position `(1, 0)`; only the row-major
reading holds `5` at `(row-1, col-1) = (0, 1)`. -/
theorem load_matrix_layout_defect :
    load_matrix 2 2 1 [((1 : Int), (2 : Int), (5 : ℝ))] = .ok ⟨2, [0, 5, 0, 0]⟩ ∧
    colMajor 2 ([0, 5, 0, 0] : List ℝ) 0 1 = 0 ∧
    colMajor 2 ([0, 5, 0, 0] : List ℝ) 1 0 = 5 ∧
    rowMajor 2 ([0, 5, 0, 0] : List ℝ) 0 1 = 5 := by
  refine ⟨?_, ?_, ?_, ?_⟩
  · norm_num [load_matrix, forLoop, loop, rd, wr, Matrix.init, bind, Except.bind, pure,
      Except.pure, List.replicate]
  · simp [colMajor]
  · simp [colMajor]
  · simp [rowMajor]

/-- C13. For `n × n` buffers, in exact real arithmetic: (1) some step `i` of the main loop is
reached and computes the norm `sqrt x = 0` exactly when the columns of `A` are linearly
dependent; (2) the routine stops with a division by zero exactly in that case; (3) when the
columns are linearly independent, every norm a reached step computes is positive, and the
routine returns with these norms on the diagonal of `R`. -/
theorem division_guard (n : Nat) (A Q R : Matrix ℝ) (hA : A.Sized n) (hQ : Q.Sized n)
    (hR : R.Sized n) :
    ((∃ i Iv s x, i < n ∧ (zeroFill n R.v >>= unitDiagonal n) = .ok Iv ∧
        forLoop 0 i (gramSchmidtStep Real.sqrt n) (A.v, Iv) = .ok s ∧
        sumSquares n i s.1 = .ok x ∧ Real.sqrt x = 0)
      ↔ ¬ ColumnsIndependent n A.v) ∧
    (qr_decomposition Real.sqrt A Q R = .error .divByZero ↔ ¬ ColumnsIndependent n A.v) ∧
    (ColumnsIndependent n A.v →
      (∀ i Iv s x, i < n → (zeroFill n R.v >>= unitDiagonal n) = .ok Iv →
        forLoop 0 i (gramSchmidtStep Real.sqrt n) (A.v, Iv) = .ok s →
        sumSquares n i s.1 = .ok x → 0 < Real.sqrt x) ∧
      ∃ Q' R', qr_decomposition Real.sqrt A Q R = .ok (Q', R') ∧
        ∀ i, i < n → 0 < R'.v.getD (i * n + i) 0) := by
  obtain ⟨Iv, hIv, hIlen, hIcells⟩ := identityFill_ok n R.v hR.2
  have hqr : qr_decomposition Real.sqrt A Q R
      = (forLoop 0 n (gramSchmidtStep Real.sqrt n) (A.v, Iv) >>= fun s =>
          (pure (⟨n, s.1⟩, ⟨R.n, s.2⟩) : Except Fault (Matrix ℝ × Matrix ℝ))) := by
    rw [qr_decomposition_eq Real.sqrt A Q R (by rw [hA.1, hQ.1]), hA.1, hIv]
    rfl
  -- positivity of every computed norm on an independent input
  have hpos : ColumnsIndependent n A.v →
      ∀ i Iv' s x, i < n → (zeroFill n R.v >>= unitDiagonal n) = .ok Iv' →
        forLoop 0 i (gramSchmidtStep Real.sqrt n) (A.v, Iv') = .ok s →
        sumSquares n i s.1 = .ok x → 0 < Real.sqrt x := by
    intro hind i Iv' s x hi hIv' hrun hx
    have hdet := (columnsIndependent_iff_det n A.v).mp hind
    have e : Iv = Iv' := by
      rw [hIv] at hIv'
      injection hIv'
    subst e
    have hInv := reached_stepInv n A.v Iv hA.2 hIlen hIcells hdet i (by omega) s hrun
    rw [sumSquares_ok n i s.1 hi hInv.lenQ] at hx
    have ex : colDot n s.1 i i = x := by injection hx
    rw [← ex]
    exact Real.sqrt_pos.mpr (colDot_pos_of_recon n A.v s.1 s.2 hdet hInv.recon i hi)
  rcases mainLoop_cases n A.v Iv hA.2 hIlen hIcells with
    ⟨s', hrun, hInv⟩ | ⟨k, t, hk, hrun, hInv, hbad, herr⟩
  · -- the loop completes: the columns are independent
    have hind : ColumnsIndependent n A.v :=
      (columnsIndependent_iff_det n A.v).mpr (guardInv_det n A.v s' hInv)
    have hok : qr_decomposition Real.sqrt A Q R = .ok (⟨n, s'.1⟩, ⟨R.n, s'.2⟩) := by
      rw [hqr, hrun]
      rfl
    refine ⟨⟨?_, fun h => absurd hind h⟩, ⟨?_, fun h => absurd hind h⟩, ?_⟩
    · rintro ⟨i, Iv', s, x, hi, hIv', hs, hx, hzero⟩
      have := hpos hind i Iv' s x hi hIv' hs hx
      rw [hzero] at this
      exact absurd this (lt_irrefl 0)
    · intro h
      rw [hok] at h
      exact absurd h (by simp)
    · intro _
      exact ⟨hpos hind, ⟨n, s'.1⟩, ⟨R.n, s'.2⟩, hok, fun i hi => hInv.diag i hi⟩
  · -- the loop stops at step `k`: the columns are dependent
    have hdep : ¬ ColumnsIndependent n A.v := by
      intro hind
      have hdet := (columnsIndependent_iff_det n A.v).mp hind
      have := colDot_pos_of_recon n A.v t.1 t.2 hdet hInv.step.recon k hk
      rw [hbad] at this
      exact absurd this (lt_irrefl 0)
    have herr' : qr_decomposition Real.sqrt A Q R = .error .divByZero := by
      rw [hqr, herr]
      rfl
    refine ⟨⟨fun _ => hdep, fun _ => ?_⟩, ⟨fun _ => hdep, fun _ => herr'⟩,
      fun h => absurd h hdep⟩
    refine ⟨k, Iv, t, colDot n t.1 k k, hk, hIv, hrun,
      sumSquares_ok n k t.1 hk hInv.step.lenQ, ?_⟩
    rw [hbad, Real.sqrt_zero]

/-- Witness of C13 on the matrix with columns `(1, 0)` and `(1, 1)`. -/
theorem division_guard_witness :
    (Matrix.Sized 2 (⟨2, [1, 0, 1, 1]⟩ : Matrix ℝ) ∧ Matrix.Sized 2 (Matrix.init 2 (0 : ℝ))) ∧
    (((∃ i Iv s x, i < 2 ∧
          (zeroFill 2 (Matrix.init 2 (0 : ℝ)).v >>= unitDiagonal 2) = .ok Iv ∧
          forLoop 0 i (gramSchmidtStep Real.sqrt 2) (([1, 0, 1, 1] : List ℝ), Iv) = .ok s ∧
          sumSquares 2 i s.1 = .ok x ∧ Real.sqrt x = 0)
        ↔ ¬ ColumnsIndependent 2 [1, 0, 1, 1]) ∧
      (qr_decomposition Real.sqrt ⟨2, [1, 0, 1, 1]⟩ (Matrix.init 2 0) (Matrix.init 2 0)
          = .error .divByZero ↔ ¬ ColumnsIndependent 2 [1, 0, 1, 1]) ∧
      (ColumnsIndependent 2 [1, 0, 1, 1] →
        (∀ i Iv s x, i < 2 →
          (zeroFill 2 (Matrix.init 2 (0 : ℝ)).v >>= unitDiagonal 2) = .ok Iv →
          forLoop 0 i (gramSchmidtStep Real.sqrt 2) (([1, 0, 1, 1] : List ℝ), Iv) = .ok s →
          sumSquares 2 i s.1 = .ok x → 0 < Real.sqrt x) ∧
        ∃ Q' R', qr_decomposition Real.sqrt ⟨2, [1, 0, 1, 1]⟩ (Matrix.init 2 0)
            (Matrix.init 2 0) = .ok (Q', R') ∧
          ∀ i, i < 2 → 0 < R'.v.getD (i * 2 + i) 0)) :=
  ⟨⟨⟨rfl, rfl⟩, ⟨rfl, rfl⟩⟩,
    division_guard 2 ⟨2, [1, 0, 1, 1]⟩ (Matrix.init 2 0) (Matrix.init 2 0)
      ⟨rfl, rfl⟩ ⟨rfl, rfl⟩ ⟨rfl, rfl⟩⟩

/-- C14. If step `i < n` of the main loop of `qr_decomposition` takes the buffers `s` to
`s'`, then columns `0 … i-1` of `Q` are unchanged and every cell of `R` other than
`R.v[i*n+i]` and `R.v[j*n+i]`, `i < j < n`, is unchanged; and the steps that follow leave
columns `0 … i` of `Q` unchanged. -/
theorem step_frame {α : Type} [Field α] [DecidableEq α] (sqrt : α → α) (n i : Nat)
    (hi : i < n) (s s' : List α × List α) (h : gramSchmidtStep sqrt n i s = .ok s') :
    (∀ c k, c < i → k < n → s'.1.getD (c * n + k) 0 = s.1.getD (c * n + k) 0) ∧
    (∀ idx, (∀ j, i ≤ j → j < n → idx ≠ j * n + i) → s'.2.getD idx 0 = s.2.getD idx 0) ∧
    (∀ s'', forLoop (i + 1) n (gramSchmidtStep sqrt n) s' = .ok s'' →
      ∀ c k, c ≤ i → k < n → s''.1.getD (c * n + k) 0 = s'.1.getD (c * n + k) 0) := by
  obtain ⟨hq, hr⟩ := gramSchmidtStep_frame sqrt n i hi s s' h
  refine ⟨?_, hr, ?_⟩
  · intro c k hc hk
    apply hq
    have : (c + 1) * n ≤ i * n := Nat.mul_le_mul_right n hc
    have e : (c + 1) * n = c * n + n := by ring
    omega
  · intro s'' h'' c k hc hk
    apply laterSteps_frame sqrt n i s' s'' h''
    have : (c + 1) * n ≤ (i + 1) * n := Nat.mul_le_mul_right n (by omega)
    have e : (c + 1) * n = c * n + n := by ring
    omega

/-- Witness of C14: step `i = 1` of the run on the matrix `[[3, 4], [4, 6]]`. -/
theorem step_frame_witness :
    ((1 : Nat) < 2 ∧
      gramSchmidtStep Real.sqrt 2 1
          (([3 / 5, 4 / 5, -(8 / 25), 6 / 25] : List ℝ), ([5, 0, 36 / 5, 1] : List ℝ))
        = .ok ([3 / 5, 4 / 5, -(4 / 5), 3 / 5], [5, 0, 36 / 5, 2 / 5])) ∧
    ((∀ c k, c < 1 → k < 2 →
        ([3 / 5, 4 / 5, -(4 / 5), 3 / 5] : List ℝ).getD (c * 2 + k) 0
          = ([3 / 5, 4 / 5, -(8 / 25), 6 / 25] : List ℝ).getD (c * 2 + k) 0) ∧
      (∀ idx, (∀ j, 1 ≤ j → j < 2 → idx ≠ j * 2 + 1) →
        ([5, 0, 36 / 5, 2 / 5] : List ℝ).getD idx 0 = ([5, 0, 36 / 5, 1] : List ℝ).getD idx 0) ∧
      (∀ s'', forLoop (1 + 1) 2 (gramSchmidtStep Real.sqrt 2)
          (([3 / 5, 4 / 5, -(4 / 5), 3 / 5] : List ℝ), ([5, 0, 36 / 5, 2 / 5] : List ℝ))
            = .ok s'' →
        ∀ c k, c ≤ 1 → k < 2 →
          s''.1.getD (c * 2 + k) 0
            = ([3 / 5, 4 / 5, -(4 / 5), 3 / 5] : List ℝ).getD (c * 2 + k) 0)) :=
  ⟨⟨by decide, step_run_sym346⟩,
    step_frame Real.sqrt 2 1 (by decide) ([3 / 5, 4 / 5, -(8 / 25), 6 / 25], [5, 0, 36 / 5, 1])
      ([3 / 5, 4 / 5, -(4 / 5), 3 / 5], [5, 0, 36 / 5, 2 / 5]) step_run_sym346⟩

/-- C15. Within step `i`, on buffers of `n * n` cells: (1) for distinct trailing columns
`j`, `j'` the inner-loop body run for `j` then `j'` returns the same `Q` and `R` as run for
`j'` then `j`; (2) running the bodies in any order that is a permutation of
`i+1, …, n-1` returns what the loop returns; (3) the body for `j` changes only column `j`
of `Q` and the cell `R.v[j*n+i]`; (4) what it writes there depends only on columns `i`
and `j` of `Q` and on `R.v[j*n+i]`. -/
theorem update_order_independent {α : Type} [Field α] [DecidableEq α] (n i : Nat)
    (s : List α × List α) (hQ : s.1.length = n * n) (hR : s.2.length = n * n) :
    (∀ j j', i < j → j < n → i < j' → j' < n → j ≠ j' →
      ∃ s', (updateColumn n i j s >>= updateColumn n i j') = .ok s' ∧
        (updateColumn n i j' s >>= updateColumn n i j) = .ok s') ∧
    (∀ order : List Nat, order.Perm (List.range' (i + 1) (n - (i + 1))) →
      ∃ s', updateColumnsInOrder n i order s = .ok s' ∧
        forLoop (i + 1) n (updateColumn n i) s = .ok s') ∧
    (∀ j, i < j → j < n →
      ∃ s', updateColumn n i j s = .ok s' ∧
        (∀ c k, c < n → k < n → c ≠ j → s'.1.getD (c * n + k) 0 = s.1.getD (c * n + k) 0) ∧
        (∀ c m, c < n → m < n → ¬ (c = j ∧ m = i) →
          s'.2.getD (c * n + m) 0 = s.2.getD (c * n + m) 0) ∧
        (∀ t : List α × List α, t.1.length = n * n → t.2.length = n * n →
          (∀ k, k < n → t.1.getD (i * n + k) 0 = s.1.getD (i * n + k) 0) →
          (∀ k, k < n → t.1.getD (j * n + k) 0 = s.1.getD (j * n + k) 0) →
          t.2.getD (j * n + i) 0 = s.2.getD (j * n + i) 0 →
          ∃ t', updateColumn n i j t = .ok t' ∧
            (∀ k, k < n → t'.1.getD (j * n + k) 0 = s'.1.getD (j * n + k) 0) ∧
            t'.2.getD (j * n + i) 0 = s'.2.getD (j * n + i) 0)) := by
  refine ⟨?_, ?_, ?_⟩
  · intro j j' hij hj hij' hj' hjj'
    obtain ⟨Q₂, R₂, hrun, _⟩ := updateColumn_twice n i j j' s.1 s.2 (by omega) hj hj'
      (by omega) (by omega) hjj' hQ hR
    refine ⟨(Q₂, R₂), hrun, ?_⟩
    rw [← updateColumn_comm n i j j' s hij hj hij' hj' hQ hR]
    exact hrun
  · intro order hperm
    obtain ⟨s', hrun, _⟩ := forLoop_inv
      (fun _ (t : List α × List α) => t.1.length = n * n ∧ t.2.length = n * n)
      (i + 1) (max (i + 1) n) (Nat.le_max_left _ _) (updateColumn n i) s ⟨hQ, hR⟩
      (by
        intro j t hlo hhi ht
        have hjn : j < n := by
          rcases Nat.lt_or_ge (i + 1) n with h | h
          · rw [Nat.max_eq_right (by omega)] at hhi; exact hhi
          · rw [Nat.max_eq_left h] at hhi; omega
        obtain ⟨Q₁, R₁, hrun, hQ₁, hR₁, _, _⟩ :=
          updateColumn_ok n i j t.1 t.2 (by omega) hjn (by omega) ht.1 ht.2
        exact ⟨(Q₁, R₁), hrun, hQ₁, hR₁⟩)
    have hloop : forLoop (i + 1) n (updateColumn n i) s = .ok s' := by
      have e : max (i + 1) n - (i + 1) = n - (i + 1) := by
        rcases Nat.lt_or_ge (i + 1) n with h | h
        · rw [Nat.max_eq_right (by omega)]
        · rw [Nat.max_eq_left h]; omega
      unfold forLoop at hrun ⊢
      rw [e] at hrun
      exact hrun
    refine ⟨s', ?_, hloop⟩
    rw [updateColumnsInOrder_perm n i order _ hperm
      (fun j hj => by
        have := (List.mem_range'_1.mp (hperm.mem_iff.mp hj))
        omega) s hQ hR]
    rw [← hloop]
    unfold updateColumnsInOrder forLoop
    exact (loop_eq_foldlM (updateColumn n i) (n - (i + 1)) (i + 1) s).symm
  · intro j hij hj
    obtain ⟨Q₁, R₁, hrun, hQ₁, hR₁, hQc, hRc⟩ :=
      updateColumn_ok n i j s.1 s.2 (by omega) hj (by omega) hQ hR
    refine ⟨(Q₁, R₁), hrun, ?_, ?_, ?_⟩
    · intro c k hc hk hcj
      show Q₁.getD (c * n + k) 0 = _
      rw [hQc c k hc hk, if_neg hcj]
    · intro c m hc hm hcm
      show R₁.getD (c * n + m) 0 = _
      rw [hRc c m hc hm, if_neg hcm]
    · intro t htQ htR hcolI hcolJ hcell
      obtain ⟨Q₂, R₂, hrun₂, _, _, hQc₂, hRc₂⟩ :=
        updateColumn_ok n i j t.1 t.2 (by omega) hj (by omega) htQ htR
      have hdot : colDot n t.1 i j = colDot n s.1 i j :=
        colDot_congr n s.1 t.1 i j hcolI hcolJ
      refine ⟨(Q₂, R₂), hrun₂, ?_, ?_⟩
      · intro k hk
        show Q₂.getD (j * n + k) 0 = Q₁.getD (j * n + k) 0
        rw [hQc₂ j k hj hk, hQc j k hj hk, if_pos rfl, if_pos rfl, hdot, hcolI k hk,
          hcolJ k hk]
      · show R₂.getD (j * n + i) 0 = R₁.getD (j * n + i) 0
        rw [hRc₂ j i hj (by omega), hRc j i hj (by omega), if_pos ⟨rfl, rfl⟩,
          if_pos ⟨rfl, rfl⟩, hdot, hcell]
/-- Witness of C15: step `i = 0` on a `3 × 3` pair of buffers, trailing columns 1 and 2. -/
theorem update_order_independent_witness :
    ((([1, 0, 0, 1, 1, 0, 1, 1, 1] : List ℝ), ([1, 0, 0, 0, 1, 0, 0, 0, 1] : List ℝ)).1.length
        = 3 * 3 ∧
      (([1, 0, 0, 1, 1, 0, 1, 1, 1] : List ℝ), ([1, 0, 0, 0, 1, 0, 0, 0, 1] : List ℝ)).2.length
        = 3 * 3) ∧
    ((∀ j j', 0 < j → j < 3 → 0 < j' → j' < 3 → j ≠ j' →
      ∃ s', (updateColumn 3 0 j
            (([1, 0, 0, 1, 1, 0, 1, 1, 1] : List ℝ), ([1, 0, 0, 0, 1, 0, 0, 0, 1] : List ℝ))
            >>= updateColumn 3 0 j') = .ok s' ∧
        (updateColumn 3 0 j'
            (([1, 0, 0, 1, 1, 0, 1, 1, 1] : List ℝ), ([1, 0, 0, 0, 1, 0, 0, 0, 1] : List ℝ))
            >>= updateColumn 3 0 j) = .ok s') ∧
    (∀ order : List Nat, order.Perm (List.range' (0 + 1) (3 - (0 + 1))) →
      ∃ s', updateColumnsInOrder 3 0 order
            (([1, 0, 0, 1, 1, 0, 1, 1, 1] : List ℝ), ([1, 0, 0, 0, 1, 0, 0, 0, 1] : List ℝ))
          = .ok s' ∧
        forLoop (0 + 1) 3 (updateColumn 3 0)
            (([1, 0, 0, 1, 1, 0, 1, 1, 1] : List ℝ), ([1, 0, 0, 0, 1, 0, 0, 0, 1] : List ℝ))
          = .ok s') ∧
    (∀ j, 0 < j → j < 3 →
      ∃ s', updateColumn 3 0 j
            (([1, 0, 0, 1, 1, 0, 1, 1, 1] : List ℝ), ([1, 0, 0, 0, 1, 0, 0, 0, 1] : List ℝ))
          = .ok s' ∧
        (∀ c k, c < 3 → k < 3 → c ≠ j →
          s'.1.getD (c * 3 + k) 0
            = (([1, 0, 0, 1, 1, 0, 1, 1, 1] : List ℝ),
                ([1, 0, 0, 0, 1, 0, 0, 0, 1] : List ℝ)).1.getD (c * 3 + k) 0) ∧
        (∀ c m, c < 3 → m < 3 → ¬ (c = j ∧ m = 0) →
          s'.2.getD (c * 3 + m) 0
            = (([1, 0, 0, 1, 1, 0, 1, 1, 1] : List ℝ),
                ([1, 0, 0, 0, 1, 0, 0, 0, 1] : List ℝ)).2.getD (c * 3 + m) 0) ∧
        (∀ t : List ℝ × List ℝ, t.1.length = 3 * 3 → t.2.length = 3 * 3 →
          (∀ k, k < 3 → t.1.getD (0 * 3 + k) 0
            = (([1, 0, 0, 1, 1, 0, 1, 1, 1] : List ℝ),
                ([1, 0, 0, 0, 1, 0, 0, 0, 1] : List ℝ)).1.getD (0 * 3 + k) 0) →
          (∀ k, k < 3 → t.1.getD (j * 3 + k) 0
            = (([1, 0, 0, 1, 1, 0, 1, 1, 1] : List ℝ),
                ([1, 0, 0, 0, 1, 0, 0, 0, 1] : List ℝ)).1.getD (j * 3 + k) 0) →
          t.2.getD (j * 3 + 0) 0
            = (([1, 0, 0, 1, 1, 0, 1, 1, 1] : List ℝ),
                ([1, 0, 0, 0, 1, 0, 0, 0, 1] : List ℝ)).2.getD (j * 3 + 0) 0 →
          ∃ t', updateColumn 3 0 j t = .ok t' ∧
            (∀ k, k < 3 → t'.1.getD (j * 3 + k) 0 = s'.1.getD (j * 3 + k) 0) ∧
            t'.2.getD (j * 3 + 0) 0 = s'.2.getD (j * 3 + 0) 0))) :=
  ⟨⟨rfl, rfl⟩,
    update_order_independent 3 0
      (([1, 0, 0, 1, 1, 0, 1, 1, 1] : List ℝ), ([1, 0, 0, 0, 1, 0, 0, 0, 1] : List ℝ)) rfl rfl⟩

/-- In exact real arithmetic a nonzero `1 × 1` iterate is a fixed point of the driver: for a
real `a ≠ 0` and every round count `k`, the driver returns and its final iterate is `[a]`.
(On `double` the square `a * a` can overflow or underflow, which this model does not
cover.) -/
theorem driver_scalar_unchanged (a : ℝ) (ha : a ≠ 0) (k : Nat) (A_next Q R : Matrix ℝ)
    (hN : A_next.Sized 1) (hQ : Q.Sized 1) (hR : R.Sized 1) :
    ∃ s', driver Real.sqrt k ⟨⟨1, [a]⟩, A_next, Q, R⟩ = .ok s' ∧ s'.A = ⟨1, [a]⟩ := by
  obtain ⟨s', hrun, _, hA⟩ := forLoop_inv
    (fun _ (t : Buffers ℝ) => t.Sized 1 ∧ t.A = ⟨1, [a]⟩)
    0 k (Nat.zero_le k) (fun _ t => round Real.sqrt t) ⟨⟨1, [a]⟩, A_next, Q, R⟩
    ⟨⟨⟨rfl, rfl⟩, hN, hQ, hR⟩, rfl⟩
    (by
      intro _ t _ _ ⟨ht, htA⟩
      refine ⟨_, round_run_scalar a ha t ht htA, ⟨⟨rfl, rfl⟩, ⟨rfl, rfl⟩, ⟨rfl, rfl⟩, ⟨rfl, rfl⟩⟩, rfl⟩)
  exact ⟨s', hrun, hA⟩

/-- Three rounds of the driver on the real `1 × 1` matrix `[-3]`. -/
theorem driver_scalar_unchanged_witness :
    ((-3 : ℝ) ≠ 0 ∧ Matrix.Sized 1 (Matrix.init 1 (0 : ℝ))) ∧
    ∃ s', driver Real.sqrt 3 ⟨⟨1, [-3]⟩, Matrix.init 1 0, Matrix.init 1 0, Matrix.init 1 0⟩
        = .ok s' ∧ s'.A = ⟨1, [-3]⟩ :=
  ⟨⟨by norm_num, ⟨rfl, rfl⟩⟩,
    driver_scalar_unchanged (-3) (by norm_num) 3 (Matrix.init 1 0) (Matrix.init 1 0)
      (Matrix.init 1 0) ⟨rfl, rfl⟩ ⟨rfl, rfl⟩ ⟨rfl, rfl⟩⟩

/-- C17 (defect in the code). For `x = {0 ↦ 2}` and `y = {0 ↦ 3}` the method returns
`2 * 2 = 4` where the common index contributes `2 * 3 = 6`: the second factor is read from
the values of `x`. For `x = {1 ↦ 2}` and `y = {0 ↦ 3, 1 ↦ 5}` that read is `x.values[1]`,
outside the one-element list of `x`. -/
theorem sparse_dot_defect :
    Vec.dot (⟨2, [0], [2]⟩ : Vec ℝ) ⟨2, [0], [3]⟩ = .ok 4 ∧
    (⟨2, [0], [2]⟩ : Vec ℝ).valueAt 0 * (⟨2, [0], [3]⟩ : Vec ℝ).valueAt 0 = 6 ∧
    Vec.dot (⟨2, [1], [2]⟩ : Vec ℝ) ⟨2, [0, 1], [3, 5]⟩ = .error .outOfRange := by
  refine ⟨?_, ?_, ?_⟩
  · unfold Vec.dot
    rw [Vec.dotLoop]
    norm_num [Vec.nvals, rd, bind, Except.bind]
    rw [Vec.dotLoop]
    norm_num [Vec.nvals]
  · norm_num [Vec.valueAt, List.lookup]
  · unfold Vec.dot
    rw [Vec.dotLoop]
    norm_num [Vec.nvals]
    rw [Vec.dotLoop]
    norm_num [Vec.nvals, rd, bind, Except.bind]

/-- C18 (defect in the code). (1) For `x = {2 ↦ 5}` and an empty `q` the loop body never
runs and the result is empty: the entries left in `x` are dropped, so position 2 holds `0`
instead of `5`. (2) For `x = {2 ↦ 5}`, `q = {2 ↦ 1}` and `alpha = 1` the result is
`{0 ↦ 4}`: the counter `i` is stored in place of the index `2`. (3) For
`x = {0 ↦ 1, 5 ↦ 1}` and `q = {3 ↦ 1}` the result has the index list `[0, 0]`, which is
not strictly increasing. -/
theorem sparse_project_defect :
    Vec.project (⟨3, [2], [5]⟩ : Vec ℝ) 1 ⟨3, [], []⟩ = .ok ⟨3, [], []⟩ ∧
    (⟨3, [], []⟩ : Vec ℝ).valueAt 2 = 0 ∧
    (⟨3, [2], [5]⟩ : Vec ℝ).valueAt 2 - 1 * (⟨3, [], []⟩ : Vec ℝ).valueAt 2 = 5 ∧
    Vec.project (⟨3, [2], [5]⟩ : Vec ℝ) 1 ⟨3, [2], [1]⟩ = .ok ⟨3, [0], [4]⟩ ∧
    (⟨3, [0], [4]⟩ : Vec ℝ).valueAt 2 = 0 ∧
    (⟨3, [2], [5]⟩ : Vec ℝ).valueAt 2 - 1 * (⟨3, [2], [1]⟩ : Vec ℝ).valueAt 2 = 4 ∧
    Vec.project (⟨6, [0, 5], [1, 1]⟩ : Vec ℝ) 1 ⟨6, [3], [1]⟩ = .ok ⟨6, [0, 0], [1, -1]⟩ ∧
    ¬ List.Pairwise (fun a b : Nat => a < b) [0, 0] := by
  refine ⟨?_, ?_, ?_, ?_, ?_, ?_, ?_, ?_⟩
  · unfold Vec.project
    rw [Vec.projectLoop]
    norm_num [Vec.nvals, Vec.dim, bind, Except.bind, pure, Except.pure]
  · norm_num [Vec.valueAt, List.lookup]
  · norm_num [Vec.valueAt, List.lookup]
  · unfold Vec.project
    rw [Vec.projectLoop]
    norm_num [Vec.nvals, rd, bind, Except.bind]
    rw [Vec.projectLoop]
    norm_num [Vec.nvals, Vec.dim, bind, Except.bind, pure, Except.pure]
  · rfl
  · norm_num [Vec.valueAt, List.lookup]
  · unfold Vec.project
    rw [Vec.projectLoop]
    norm_num [Vec.nvals, rd, bind, Except.bind]
    rw [Vec.projectLoop]
    norm_num [Vec.nvals, rd, bind, Except.bind]
    rw [Vec.projectLoop]
    norm_num [Vec.nvals, Vec.dim, bind, Except.bind, pure, Except.pure]
  · simp

/-- C19. On an `n × n` real matrix with linearly independent columns the routine returns,
and `A.v[j*n+k]` is the sum over `i ≤ j` of `R.v[j*n+i] * Q.v[i*n+k]`: as matrices,
`A = Q * Rᵀ` with `R` read row-major, which is `A = Q * R` with `R` read column-major. -/
theorem qr_reconstruction_buffer (n : Nat) (A Q R : Matrix ℝ) (hA : A.Sized n)
    (hQ : Q.Sized n) (hR : R.Sized n) (hind : ColumnsIndependent n A.v) :
    ∃ Q' R', qr_decomposition Real.sqrt A Q R = .ok (Q', R') ∧
      (∀ j k, j < n → k < n →
        A.v.getD (j * n + k) 0
          = ∑ i in Finset.range (j + 1), R'.v.getD (j * n + i) 0 * Q'.v.getD (i * n + k) 0) ∧
      colMajor n A.v = colMajor n Q'.v * (rowMajor n R'.v).transpose ∧
      colMajor n A.v = colMajor n Q'.v * colMajor n R'.v := by
  obtain ⟨Qv, Rv, hrun, hInv⟩ := qr_decomposition_spec n A Q R hA.1 hA.2 hQ.1 hR.2
    ((columnsIndependent_iff_det n A.v).mp hind)
  have hmat := (recon_iff_matrix n A.v Qv Rv).mp hInv.recon
  refine ⟨⟨n, Qv⟩, ⟨R.n, Rv⟩, hrun, ?_, hmat, ?_⟩
  · intro j k hj hk
    rw [hInv.recon j k hj hk]
    symm
    apply Finset.sum_subset (Finset.range_subset.mpr (by omega))
    intro m hm hnm
    have hm' : m < n := Finset.mem_range.mp hm
    have hjm : j < m := by
      have := Finset.mem_range.not.mp hnm
      omega
    show Rv.getD (j * n + m) 0 * Qv.getD (m * n + k) 0 = 0
    rw [hInv.lower j m hj hm' hjm, zero_mul]
  · rw [hmat, rowMajor_eq_transpose, Matrix.transpose_transpose]

/-- Witness of C19 on the matrix with columns `(1, 0)` and `(1, 1)`. -/
theorem qr_reconstruction_buffer_witness :
    (Matrix.Sized 2 (⟨2, [1, 0, 1, 1]⟩ : Matrix ℝ) ∧ Matrix.Sized 2 (Matrix.init 2 (0 : ℝ))
      ∧ ColumnsIndependent 2 [1, 0, 1, 1]) ∧
    ∃ Q' R', qr_decomposition Real.sqrt ⟨2, [1, 0, 1, 1]⟩ (Matrix.init 2 0) (Matrix.init 2 0)
        = .ok (Q', R') ∧
      (∀ j k, j < 2 → k < 2 →
        ([1, 0, 1, 1] : List ℝ).getD (j * 2 + k) 0
          = ∑ i in Finset.range (j + 1), R'.v.getD (j * 2 + i) 0 * Q'.v.getD (i * 2 + k) 0) ∧
      colMajor 2 [1, 0, 1, 1] = colMajor 2 Q'.v * (rowMajor 2 R'.v).transpose ∧
      colMajor 2 [1, 0, 1, 1] = colMajor 2 Q'.v * colMajor 2 R'.v :=
  ⟨⟨⟨rfl, rfl⟩, ⟨rfl, rfl⟩, independent_shear⟩,
    qr_reconstruction_buffer 2 ⟨2, [1, 0, 1, 1]⟩ (Matrix.init 2 0) (Matrix.init 2 0)
      ⟨rfl, rfl⟩ ⟨rfl, rfl⟩ ⟨rfl, rfl⟩ independent_shear⟩

/-- C20. One driver round started from the same `n × n` iterate with two choices of sized
scratch buffers `A_next`, `Q`, `R` ends with the same iterate, the same `Q` and the same
`R` (and faults alike): the result of a round is a function of the iterate alone. -/
theorem round_scratch_independent {α : Type} [Field α] [DecidableEq α] (sqrt : α → α)
    (n : Nat) (s t : Buffers α) (hs : s.Sized n) (ht : t.Sized n) (hA : s.A = t.A) :
    (round sqrt s).map (fun u => (u.A, u.Q, u.R))
      = (round sqrt t).map (fun u => (u.A, u.Q, u.R)) := by
  rw [round_scratch sqrt n s t hs ht hA]

/-- Witness of C20: the iterate `[[3, 4], [4, 6]]` with zero-filled scratch buffers and with
scratch buffers filled with `1`, `2` and `3`. -/
theorem round_scratch_independent_witness :
    (Buffers.Sized 2
        (⟨⟨2, [3, 4, 4, 6]⟩, Matrix.init 2 0, Matrix.init 2 0, Matrix.init 2 0⟩ : Buffers ℝ) ∧
      Buffers.Sized 2
        (⟨⟨2, [3, 4, 4, 6]⟩, Matrix.init 2 1, Matrix.init 2 2, Matrix.init 2 3⟩ : Buffers ℝ)) ∧
    (round Real.sqrt
        ⟨⟨2, [3, 4, 4, 6]⟩, Matrix.init 2 0, Matrix.init 2 0, Matrix.init 2 0⟩).map
        (fun u => (u.A, u.Q, u.R))
      = (round Real.sqrt
          ⟨⟨2, [3, 4, 4, 6]⟩, Matrix.init 2 1, Matrix.init 2 2, Matrix.init 2 3⟩).map
          (fun u => (u.A, u.Q, u.R)) :=
  ⟨⟨⟨⟨rfl, rfl⟩, ⟨rfl, rfl⟩, ⟨rfl, rfl⟩, ⟨rfl, rfl⟩⟩,
      ⟨⟨rfl, rfl⟩, ⟨rfl, rfl⟩, ⟨rfl, rfl⟩, ⟨rfl, rfl⟩⟩⟩,
    round_scratch_independent Real.sqrt 2
      ⟨⟨2, [3, 4, 4, 6]⟩, Matrix.init 2 0, Matrix.init 2 0, Matrix.init 2 0⟩
      ⟨⟨2, [3, 4, 4, 6]⟩, Matrix.init 2 1, Matrix.init 2 2, Matrix.init 2 3⟩
      ⟨⟨rfl, rfl⟩, ⟨rfl, rfl⟩, ⟨rfl, rfl⟩, ⟨rfl, rfl⟩⟩
      ⟨⟨rfl, rfl⟩, ⟨rfl, rfl⟩, ⟨rfl, rfl⟩, ⟨rfl, rfl⟩⟩ rfl⟩

end QR
